import Mathlib

/-!
Verification of the tree-layout engine of a genealogy-to-canvas generator.

The definitions below are a shallow embedding of `src/canvas_generator.py`:
  * `bfsBuild` / `buildTreeStructure` embed `CanvasGenerator._build_tree_structure`;
  * `exec` embeds the mutually recursive layout procedures
    `_layout_descendants_left`, `_layout_ancestors_right`,
    `_position_spouse_siblings` and their inner loops (state passing made
    explicit, recursion made total with a fuel parameter: the Python
    recursion can genuinely diverge, see the cyclic-parents theorems);
  * `calcPositions` embeds `CanvasGenerator._calculate_positions`;
  * `canvasEdges` embeds the edge-emission part of
    `CanvasGenerator._create_canvas_elements`.

Python dicts are modelled as insertion-ordered association lists, Python
sets as membership lists, float y-coordinates as rationals (all arithmetic
performed by the code is dyadic and exact at these magnitudes), and the
`(x, direction)` keys of the shared collision map as `Int × Dir` pairs.
-/

namespace GedcomCanvas

/- Rational arithmetic must evaluate inside `decide` proofs about concrete
layouts; the library marks these operations irreducible by default. -/
attribute [local semireducible] Rat.add Rat.sub Rat.mul Rat.inv

/-- Person identifiers are GEDCOM pointer strings. -/
abbrev Id := String

/-- Lookup in an insertion-ordered association list (Python `d[k]` / `d.get(k)`). -/
def alGet {κ α : Type} [DecidableEq κ] : List (κ × α) → κ → Option α
  | [], _ => none
  | (k2, v) :: rest, k => if k2 = k then some v else alGet rest k

/-- Update in an insertion-ordered association list (Python `d[k] = v`):
an existing key keeps its position, a new key is appended. -/
def alSet {κ α : Type} [DecidableEq κ] : List (κ × α) → κ → α → List (κ × α)
  | [], k, v => [(k, v)]
  | (k2, v2) :: rest, k, v => if k2 = k then (k, v) :: rest else (k2, v2) :: alSet rest k v

/-- Lookup with a default (Python `d.get(k, dflt)`). -/
def alGetD {κ α : Type} [DecidableEq κ] (l : List (κ × α)) (k : κ) (dflt : α) : α :=
  (alGet l k).getD dflt

/-- The keys of an association list, in insertion order. -/
def keysOf {κ α : Type} (l : List (κ × α)) : List κ := l.map (·.1)

@[simp] theorem alGet_nil {κ α : Type} [DecidableEq κ] (k : κ) :
    alGet ([] : List (κ × α)) k = none := rfl

theorem alGet_cons {κ α : Type} [DecidableEq κ] (k2 : κ) (v : α) (rest : List (κ × α)) (k : κ) :
    alGet ((k2, v) :: rest) k = if k2 = k then some v else alGet rest k := rfl

theorem alGet_alSet_self {κ α : Type} [DecidableEq κ] (l : List (κ × α)) (k : κ) (v : α) :
    alGet (alSet l k v) k = some v := by
  induction l with
  | nil => simp [alSet, alGet]
  | cons hd tl ih =>
    obtain ⟨k2, v2⟩ := hd
    by_cases h : k2 = k
    · simp [alSet, alGet, h]
    · simp [alSet, alGet, h, ih]

theorem alGet_alSet_ne {κ α : Type} [DecidableEq κ] (l : List (κ × α)) (k k2 : κ) (v : α)
    (h : k2 ≠ k) : alGet (alSet l k v) k2 = alGet l k2 := by
  induction l with
  | nil => simp [alSet, alGet, fun hh => h hh.symm ∘ Eq.symm, h.symm]
  | cons hd tl ih =>
    obtain ⟨k3, v3⟩ := hd
    by_cases h3 : k3 = k
    · subst h3
      simp [alSet, alGet, h.symm]
    · simp [alSet, alGet, h3, ih]

theorem mem_keysOf_alSet {κ α : Type} [DecidableEq κ] (l : List (κ × α)) (k k2 : κ) (v : α) :
    k2 ∈ keysOf (alSet l k v) ↔ k2 ∈ keysOf l ∨ k2 = k := by
  induction l with
  | nil => simp [alSet, keysOf, eq_comm]
  | cons hd tl ih =>
    obtain ⟨k3, v3⟩ := hd
    by_cases h3 : k3 = k
    · subst h3
      simp [alSet, keysOf]
      tauto
    · simp [alSet, keysOf, h3] at *
      tauto

theorem alGet_isSome_iff_mem_keysOf {κ α : Type} [DecidableEq κ] (l : List (κ × α)) (k : κ) :
    (alGet l k).isSome ↔ k ∈ keysOf l := by
  induction l with
  | nil => simp [alGet, keysOf]
  | cons hd tl ih =>
    obtain ⟨k2, v2⟩ := hd
    by_cases h : k2 = k
    · simp [alGet, keysOf, h]
    · simp only [alGet, keysOf, List.map_cons, List.mem_cons]
      rw [if_neg h]
      rw [ih]
      simp [keysOf]
      intro hk
      exact absurd hk.symm h

theorem mem_keysOf_of_alGet_eq_some {κ α : Type} [DecidableEq κ] {l : List (κ × α)} {k : κ}
    {v : α} (h : alGet l k = some v) : k ∈ keysOf l := by
  have := (alGet_isSome_iff_mem_keysOf l k).mp (by simp [h])
  exact this

theorem mem_of_alGet_eq_some {κ α : Type} [DecidableEq κ] {l : List (κ × α)} {k : κ} {v : α}
    (h : alGet l k = some v) : (k, v) ∈ l := by
  induction l with
  | nil => simp [alGet] at h
  | cons hd tl ih =>
    obtain ⟨k2, v2⟩ := hd
    by_cases hk : k2 = k
    · subst hk
      simp [alGet] at h
      simp [h]
    · simp [alGet, hk] at h
      simp [ih h]

/-! ### Data model of the layout engine -/

/-- One entry of the tree-structure map built by `_build_tree_structure`
(`individual` is projected to the two facts the layout and emitter read:
`get_gender()` and whether `get_images()` is nonempty). -/
structure TreeNode where
  gender : String
  hasImage : Bool
  generation : Int
  spouses : List Id
  children : List Id
  parents : List Id
deriving DecidableEq

/-- The tree-structure map (Python dict, insertion ordered). -/
abbrev Tree := List (Id × TreeNode)

/-- Growth direction of the ancestor layout (`'up'` / `'down'` strings in Python). -/
inductive Dir where
  | up
  | down
deriving DecidableEq

/-- The shared `min_y_at_x` collision map, keyed by `(x, direction)`. -/
abbrev MinY := List ((Int × Dir) × ℚ)

/-- `CanvasGenerator.NODE_BASE_HEIGHT`. -/
def NODE_BASE_HEIGHT : ℚ := 60

/-- `CanvasGenerator.GENERATION_SPACING`. -/
def GENERATION_SPACING : Int := 680

/-- `CanvasGenerator.SIBLING_SPACING`. -/
def SIBLING_SPACING : ℚ := 305

/-- `CanvasGenerator.COUPLE_SPACING`. -/
def COUPLE_SPACING : ℚ := 190

/-- `CanvasGenerator.IMAGE_HEIGHT`. -/
def IMAGE_HEIGHT : ℚ := 350

/-- `CanvasGenerator.TREE_SPACING`. -/
def TREE_SPACING : Int := 400

/-- Rendered node height (`_create_node`): `IMAGE_HEIGHT` with an image,
`NODE_BASE_HEIGHT` without. -/
def nodeHeight (n : TreeNode) : ℚ := if n.hasImage then IMAGE_HEIGHT else NODE_BASE_HEIGHT

/-- The mutable layout state: the `positions` dict and the `processed` set. -/
structure LState where
  positions : List (Id × (Int × ℚ))
  processed : List Id
deriving DecidableEq

/-- Write a position and mark the person processed (every placement site of
the Python code performs exactly this pair of mutations). -/
def place (st : LState) (k : Id) (x : Int) (y : ℚ) : LState :=
  ⟨alSet st.positions k (x, y), k :: st.processed⟩

/-- `'up' if gender == 'M' else 'down'` (the sex-to-direction convention). -/
def dirOfGender (g : String) : Dir := if g = "M" then Dir.up else Dir.down

/-- `_get_siblings`: all children of any of the person's recorded parents,
excluding the person itself, deduplicated, in discovery order. -/
def getSiblings (tree : Tree) (pid : Id) : List Id :=
  match alGet tree pid with
  | none => []
  | some node =>
      node.parents.foldl
        (fun sibs parentId =>
          match alGet tree parentId with
          | none => sibs
          | some pnode =>
              pnode.children.foldl
                (fun acc c => if c = pid ∨ c ∈ acc then acc else acc ++ [c]) sibs)
        []

/-- `_calculate_family_height`: shallow height estimate of a person plus
their (first) spouse.  Call sites always pass a fresh empty `visited` set. -/
def calcFamilyHeight (tree : Tree) (pid : Id) (visited : List Id) : ℚ :=
  if pid ∈ visited then IMAGE_HEIGHT
  else
    match alGet tree pid with
    | none => IMAGE_HEIGHT
    | some node =>
        if node.spouses = [] then IMAGE_HEIGHT
        else IMAGE_HEIGHT + (COUPLE_SPACING + IMAGE_HEIGHT)

/-- Python `min(a, b)` on coordinates, kept kernel-reducible. -/
def qmin (a b : ℚ) : ℚ := if b < a then b else a

/-- Python `max(a, b)` on coordinates, kept kernel-reducible. -/
def qmax (a b : ℚ) : ℚ := if a < b then b else a

/-- One couple offset in the growth direction (used to state placement
facts about the parent couple). -/
def coupleOffset (dir : Dir) (y : ℚ) : ℚ :=
  match dir with
  | Dir.up => y - IMAGE_HEIGHT - COUPLE_SPACING
  | Dir.down => y + IMAGE_HEIGHT + COUPLE_SPACING

/-- The parent-couple placement step of `_layout_ancestors_right`
(lines 385-442): place the father at the claimed (or child-centred) y,
the mother one couple offset further in the growth direction, update the
collision map past the mother, and compute the start cursor for the
parent-sibling stacking.  Returns the state, the map and the cursor. -/
def ancCoupleStep (tree : Tree) (st : LState) (miny : MinY) (fatherId motherId : Id)
    (parentX : Int) (personY : ℚ) (dir : Dir) : LState × MinY × ℚ :=
  let key := (parentX, dir)
  let parentY :=
    match alGet miny key with
    | some b => b
    | none => personY
  let st1 :=
    if (alGet tree fatherId).isSome ∧ fatherId ∉ st.processed then
      place st fatherId parentX parentY
    else st
  let motherStep :=
    if (alGet tree motherId).isSome ∧ motherId ∉ st1.processed then
      let my0 :=
        match dir with
        | Dir.up => parentY - IMAGE_HEIGHT - COUPLE_SPACING
        | Dir.down => parentY + IMAGE_HEIGHT + COUPLE_SPACING
      let my1 :=
        match alGet miny key with
        | some b =>
          match dir with
          | Dir.up =>
            if b < my0 then b - IMAGE_HEIGHT - COUPLE_SPACING else my0
          | Dir.down =>
            if my0 < b then b + IMAGE_HEIGHT + COUPLE_SPACING else my0
        | none => my0
      let upd :=
        match dir with
        | Dir.up => my1 - SIBLING_SPACING - IMAGE_HEIGHT
        | Dir.down => my1 + IMAGE_HEIGHT + SIBLING_SPACING
      (place st1 motherId parentX my1, alSet miny key upd, my1)
    else (st1, miny, parentY)
  let sibStart :=
    match dir with
    | Dir.up => qmin parentY motherStep.2.2 - SIBLING_SPACING - IMAGE_HEIGHT
    | Dir.down => qmax parentY motherStep.2.2 + IMAGE_HEIGHT + SIBLING_SPACING
  (motherStep.1, motherStep.2.1, sibStart)

/-- Task descriptor for the fused interpreter of the mutually recursive
layout procedures.  Each constructor is one Python procedure or one of its
`for` loops (the loop cursor state is carried in the constructor). -/
inductive Task where
  /-- `_layout_descendants_left(root_id, ...)`. -/
  | desc (rootId : Id)
  /-- the `for child_id in children` loop of `_layout_descendants_left`. -/
  | descLoop (children : List Id) (childX : Int) (heights : List (Id × ℚ)) (curY : ℚ)
  /-- `_layout_ancestors_right(root_id, ..., direction, min_y_at_x)`. -/
  | anc (rootId : Id) (dir : Dir)
  /-- the two parent-sibling loops of `_layout_ancestors_right`
  (the mother loop passes the father siblings as `exclude`). -/
  | ancSibs (sibs : List Id) (exclude : List Id) (dir : Dir) (parentX : Int) (curY : ℚ)
  /-- `_position_spouse_siblings(spouse_id, spouse_x, spouse_y, ..., direction)`. -/
  | pss (spouseId : Id) (spouseX : Int) (spouseY : ℚ) (dir : Dir)
  /-- the `for partner_id in spouse_spouses` loop of `_position_spouse_siblings`. -/
  | pssPartners (partners : List Id) (spouseX : Int) (spouseY : ℚ) (dir : Dir) (curY : ℚ)
  /-- the `for sib_id in partner_siblings` loop of `_position_spouse_siblings`. -/
  | pssInlaws (sibs : List Id) (spouseX : Int) (dir : Dir) (curY : ℚ)
  /-- the `for sibling_id in spouse_siblings` loop of `_position_spouse_siblings`. -/
  | pssSibs (sibs : List Id) (spouseX : Int) (dir : Dir) (curY : ℚ)

/-- Fueled interpreter of the mutually recursive layout procedures of
`CanvasGenerator`.  Returns the evolved layout state, the evolved
`min_y_at_x` map (meaningful for `Task.anc`, which shares it with its
recursive calls) and the final loop cursor (meaningful for the loop tasks).
`none` means the fuel ran out: the Python original can recurse forever on
cyclic parent data, so a fuel parameter is the faithful totalisation. -/
def exec (tree : Tree) : Nat → Task → LState → MinY → Option (LState × MinY × ℚ)
  | 0, _, _, _ => none
  | fuel + 1, task, st, miny =>
    match task with
    | Task.desc rootId =>
      -- `_layout_descendants_left`, lines 252-339
      match alGet tree rootId, alGet st.positions rootId with
      | some rootData, some rootPos =>
        let children := rootData.children
        if children = [] then some (st, miny, 0)
        else
          let rootY := rootPos.2
          let parentCenterY : ℚ :=
            match rootData.spouses with
            | [] => rootY
            | s :: _ =>
              match alGet st.positions s with
              | some spousePos => (rootY + spousePos.2) / 2
              | none => rootY
          let hts :=
            children.foldl
              (fun (acc : List (Id × ℚ) × ℚ) c =>
                if (alGet tree c).isSome then
                  let h := calcFamilyHeight tree c []
                  (alSet acc.1 c h, acc.2 + h)
                else acc)
              ([], 0)
          let total :=
            if 1 < children.length then
              hts.2 + ((children.length : ℚ) - 1) * SIBLING_SPACING
            else hts.2
          let childX := rootPos.1 - GENERATION_SPACING
          let startY := parentCenterY - total / 2
          exec tree fuel (Task.descLoop children childX hts.1 startY) st miny
      | _, _ => some (st, miny, 0)
    | Task.descLoop children childX heights curY =>
      -- `_layout_descendants_left`, loop at lines 306-339
      match children with
      | [] => some (st, miny, curY)
      | c :: rest =>
        if c ∈ st.processed ∨ (alGet tree c).isNone then
          exec tree fuel (Task.descLoop rest childX heights curY) st miny
        else
          match alGet tree c with
          | none => exec tree fuel (Task.descLoop rest childX heights curY) st miny
          | some childData =>
            let st1 := place st c childX curY
            let afterSpouse :=
              match childData.spouses with
              | [] => some st1
              | s :: _ =>
                if (alGet tree s).isSome ∧ s ∉ st1.processed then
                  match alGet tree s with
                  | none => some st1
                  | some spouseNode =>
                    let spouseY := curY + IMAGE_HEIGHT + COUPLE_SPACING
                    let st2 := place st1 s childX spouseY
                    let sdir := dirOfGender spouseNode.gender
                    match exec tree fuel (Task.pss s childX spouseY sdir) st2 [] with
                    | none => none
                    | some out2 =>
                      -- fresh collision map, result discarded (line 333)
                      match exec tree fuel (Task.anc s sdir) out2.1 [] with
                      | none => none
                      | some out3 => some out3.1
                else some st1
            match afterSpouse with
            | none => none
            | some st3 =>
              match exec tree fuel (Task.desc c) st3 miny with
              | none => none
              | some out4 =>
                let nextY := curY + alGetD heights c IMAGE_HEIGHT + SIBLING_SPACING
                exec tree fuel (Task.descLoop rest childX heights nextY) out4.1 miny
    | Task.anc rootId dir =>
      -- `_layout_ancestors_right`, lines 341-565
      match alGet tree rootId, alGet st.positions rootId with
      | some personData, some personPos =>
        match personData.parents with
        | [] => some (st, miny, 0)
        | [fatherId, motherId] =>
          let parentX := personPos.1 + GENERATION_SPACING
          let key := (parentX, dir)
          let cpl := ancCoupleStep tree st miny fatherId motherId parentX personPos.2 dir
          let st2 := cpl.1
          let miny2 := cpl.2.1
          let sibStart := cpl.2.2
          let fatherSibs := getSiblings tree fatherId
          match exec tree fuel (Task.ancSibs fatherSibs [] dir parentX sibStart) st2 miny2 with
          | none => none
          | some outF =>
            let motherSibs := getSiblings tree motherId
            match exec tree fuel
                (Task.ancSibs motherSibs fatherSibs dir parentX outF.2.2) outF.1 outF.2.1 with
            | none => none
            | some outM =>
              let miny3 := alSet outM.2.1 key outM.2.2
              let recF :=
                if (alGet tree fatherId).isSome then
                  exec tree fuel (Task.anc fatherId dir) outM.1 miny3
                else some (outM.1, miny3, 0)
              match recF with
              | none => none
              | some outRF =>
                if (alGet tree motherId).isSome then
                  exec tree fuel (Task.anc motherId dir) outRF.1 outRF.2.1
                else some (outRF.1, outRF.2.1, 0)
        | [parentId] =>
          if (alGet tree parentId).isSome ∧ parentId ∉ st.processed then
            let parentX := personPos.1 + GENERATION_SPACING
            let key := (parentX, dir)
            let parentY :=
              match alGet miny key with
              | some b =>
                match dir with
                | Dir.up =>
                  if b < personPos.2 then b - IMAGE_HEIGHT - SIBLING_SPACING else personPos.2
                | Dir.down =>
                  if personPos.2 < b then b + IMAGE_HEIGHT + SIBLING_SPACING else personPos.2
              | none => personPos.2
            let st1 := place st parentId parentX parentY
            let upd :=
              match dir with
              | Dir.up => parentY - IMAGE_HEIGHT - SIBLING_SPACING
              | Dir.down => parentY + IMAGE_HEIGHT + SIBLING_SPACING
            exec tree fuel (Task.anc parentId dir) st1 (alSet miny key upd)
          else some (st, miny, 0)
        | _ => some (st, miny, 0)
      | _, _ => some (st, miny, 0)
    | Task.ancSibs sibs exclude dir parentX curY =>
      -- `_layout_ancestors_right`, loops at lines 446-483 and 487-522
      match sibs with
      | [] => some (st, miny, curY)
      | sib :: rest =>
        if sib ∈ exclude ∨ (alGet tree sib).isNone ∨ sib ∈ st.processed then
          exec tree fuel (Task.ancSibs rest exclude dir parentX curY) st miny
        else
          match alGet tree sib with
          | none => exec tree fuel (Task.ancSibs rest exclude dir parentX curY) st miny
          | some sibData =>
            let st1 := place st sib parentX curY
            let step :=
              match sibData.spouses with
              | [] => none
              | s :: _ =>
                if (alGet tree s).isSome ∧ s ∉ st1.processed then some s else none
            match step with
            | some s =>
              let spouseY :=
                match dir with
                | Dir.up => curY - IMAGE_HEIGHT - COUPLE_SPACING
                | Dir.down => curY + IMAGE_HEIGHT + COUPLE_SPACING
              let st2 := place st1 s parentX spouseY
              match exec tree fuel (Task.pss s parentX spouseY dir) st2 [] with
              | none => none
              | some outP =>
                let nextCur :=
                  match dir with
                  | Dir.up => qmin curY spouseY - SIBLING_SPACING - IMAGE_HEIGHT
                  | Dir.down => qmax curY spouseY + IMAGE_HEIGHT + SIBLING_SPACING
                match exec tree fuel (Task.desc sib) outP.1 miny with
                | none => none
                | some outD =>
                  exec tree fuel (Task.ancSibs rest exclude dir parentX nextCur) outD.1 miny
            | none =>
              let nextCur :=
                match dir with
                | Dir.up => curY - (IMAGE_HEIGHT + SIBLING_SPACING)
                | Dir.down => curY + (IMAGE_HEIGHT + SIBLING_SPACING)
              match exec tree fuel (Task.desc sib) st1 miny with
              | none => none
              | some outD =>
                exec tree fuel (Task.ancSibs rest exclude dir parentX nextCur) outD.1 miny
    | Task.pss spouseId spouseX spouseY dir =>
      -- `_position_spouse_siblings`, lines 628-743
      match alGet tree spouseId with
      | none => some (st, miny, 0)
      | some spouseData =>
        let cur0 :=
          match dir with
          | Dir.up => spouseY - IMAGE_HEIGHT - SIBLING_SPACING
          | Dir.down => spouseY + IMAGE_HEIGHT + SIBLING_SPACING
        match exec tree fuel
            (Task.pssPartners spouseData.spouses spouseX spouseY dir cur0) st miny with
        | none => none
        | some out1 =>
          let spouseSibs := getSiblings tree spouseId
          exec tree fuel (Task.pssSibs spouseSibs spouseX dir out1.2.2) out1.1 miny
    | Task.pssPartners partners spouseX spouseY dir curY =>
      -- `_position_spouse_siblings`, loop at lines 660-704
      match partners with
      | [] => some (st, miny, curY)
      | p :: rest =>
        if (alGet tree p).isSome ∧ p ∉ st.processed then
          let partnerY :=
            match dir with
            | Dir.up => spouseY - IMAGE_HEIGHT - COUPLE_SPACING
            | Dir.down => spouseY + IMAGE_HEIGHT + COUPLE_SPACING
          let st1 := place st p spouseX partnerY
          let cur1 :=
            match dir with
            | Dir.up => partnerY - SIBLING_SPACING - IMAGE_HEIGHT
            | Dir.down => partnerY + IMAGE_HEIGHT + SIBLING_SPACING
          let partnerSibs := getSiblings tree p
          match exec tree fuel (Task.pssInlaws partnerSibs spouseX dir cur1) st1 miny with
          | none => none
          | some out1 =>
            exec tree fuel (Task.pssPartners rest spouseX spouseY dir out1.2.2) out1.1 miny
        else exec tree fuel (Task.pssPartners rest spouseX spouseY dir curY) st miny
    | Task.pssInlaws sibs spouseX dir curY =>
      -- `_position_spouse_siblings`, loop at lines 677-704
      match sibs with
      | [] => some (st, miny, curY)
      | sib :: rest =>
        if (alGet tree sib).isSome ∧ sib ∉ st.processed then
          match alGet tree sib with
          | none => exec tree fuel (Task.pssInlaws rest spouseX dir curY) st miny
          | some sibData =>
            let st1 := place st sib spouseX curY
            let spouseStep :=
              match sibData.spouses with
              | [] => none
              | s :: _ =>
                if (alGet tree s).isSome ∧ s ∉ st1.processed then some s else none
            let afterSp :=
              match spouseStep with
              | some s =>
                let sy :=
                  match dir with
                  | Dir.up => curY - IMAGE_HEIGHT - COUPLE_SPACING
                  | Dir.down => curY + IMAGE_HEIGHT + COUPLE_SPACING
                let nxt :=
                  match dir with
                  | Dir.up => sy - SIBLING_SPACING - IMAGE_HEIGHT
                  | Dir.down => sy + IMAGE_HEIGHT + SIBLING_SPACING
                (place st1 s spouseX sy, nxt)
              | none =>
                let nxt :=
                  match dir with
                  | Dir.up => curY - (IMAGE_HEIGHT + SIBLING_SPACING)
                  | Dir.down => curY + (IMAGE_HEIGHT + SIBLING_SPACING)
                (st1, nxt)
            match exec tree fuel (Task.desc sib) afterSp.1 miny with
            | none => none
            | some outD =>
              exec tree fuel (Task.pssInlaws rest spouseX dir afterSp.2) outD.1 miny
        else exec tree fuel (Task.pssInlaws rest spouseX dir curY) st miny
    | Task.pssSibs sibs spouseX dir curY =>
      -- `_position_spouse_siblings`, loop at lines 709-743
      match sibs with
      | [] => some (st, miny, curY)
      | sib :: rest =>
        if (alGet tree sib).isSome ∧ sib ∉ st.processed then
          match alGet tree sib with
          | none => exec tree fuel (Task.pssSibs rest spouseX dir curY) st miny
          | some sibData =>
            let st1 := place st sib spouseX curY
            let spouseStep :=
              match sibData.spouses with
              | [] => none
              | s :: _ =>
                if (alGet tree s).isSome ∧ s ∉ st1.processed then some s else none
            let afterSp :=
              match spouseStep with
              | some s =>
                let sy :=
                  match dir with
                  | Dir.up => curY - IMAGE_HEIGHT - COUPLE_SPACING
                  | Dir.down => curY + IMAGE_HEIGHT + COUPLE_SPACING
                let nxt :=
                  match dir with
                  | Dir.up => sy - SIBLING_SPACING - IMAGE_HEIGHT
                  | Dir.down => sy + IMAGE_HEIGHT + SIBLING_SPACING
                (place st1 s spouseX sy, nxt)
              | none =>
                let nxt :=
                  match dir with
                  | Dir.up => curY - (IMAGE_HEIGHT + SIBLING_SPACING)
                  | Dir.down => curY + (IMAGE_HEIGHT + SIBLING_SPACING)
                (st1, nxt)
            match exec tree fuel (Task.desc sib) afterSp.1 miny with
            | none => none
            | some outD =>
              exec tree fuel (Task.pssSibs rest spouseX dir afterSp.2) outD.1 miny
        else exec tree fuel (Task.pssSibs rest spouseX dir curY) st miny

/-- The root search of `_calculate_positions` (lines 183-187): the first
entry of the structure map with generation 0. -/
def findRoot (tree : Tree) : Option (Id × TreeNode) :=
  tree.find? (fun e => e.2.generation = 0)

/-- The fallback sweep of `_calculate_positions` (lines 242-246): unprocessed
people are stacked in a column at `max_x + TREE_SPACING`. -/
def fallbackLoop (st : LState) (colX : Int) (curY : ℚ) : List Id → LState
  | [] => st
  | p :: rest =>
      fallbackLoop (place st p colX curY) colX (curY + IMAGE_HEIGHT + SIBLING_SPACING) rest

/-- `max(x for x, y in positions.values())` (positions is nonempty whenever
this is evaluated, since the root has been placed). -/
def maxX (positions : List (Id × (Int × ℚ))) : Int :=
  match positions with
  | [] => 0
  | e :: rest => rest.foldl (fun acc p => if acc < p.2.1 then p.2.1 else acc) e.2.1

/-- The tail of `_calculate_positions` after the root-spouse block
(lines 230-250): descendants left, ancestors right, fallback sweep. -/
def calcTail (tree : Tree) (fuel : Nat) (rootId : Id) (rootDir : Dir) (st1 : LState)
    (miny1 : MinY) : Option (List (Id × (Int × ℚ))) :=
  match exec tree fuel (Task.desc rootId) st1 miny1 with
  | none => none
  | some outD =>
    match exec tree fuel (Task.anc rootId rootDir) outD.1 miny1 with
    | none => none
    | some outA2 =>
      let st3 := outA2.1
      let unproc := (keysOf tree).filter (fun k => k ∉ st3.processed)
      if unproc = [] then some st3.positions
      else
        let col := maxX st3.positions + TREE_SPACING
        some (fallbackLoop st3 col 0 unproc).positions

/-- `CanvasGenerator._calculate_positions` (lines 163-250).  The Python set
difference `set(tree_structure.keys()) - processed` has unspecified
iteration order; the model iterates it in structure insertion order.
Line 189 is `if not root_id:` — a truthiness test, so a falsy (empty
string) root key also returns the empty position map. -/
def calcPositions (tree : Tree) (fuel : Nat) : Option (List (Id × (Int × ℚ))) :=
  if tree = [] then some []
  else
    match findRoot tree with
    | none => some []
    | some root =>
      if root.1 = "" then some []
      else
      let rootId := root.1
      let st0 : LState := ⟨[(rootId, (0, 0))], [rootId]⟩
      let rootDir := dirOfGender root.2.gender
      let afterSpouse : Option (LState × MinY) :=
        match root.2.spouses with
        | [] => some (st0, [])
        | spouseId :: _ =>
          match alGet tree spouseId with
          | none => some (st0, [])
          | some spouseNode =>
            -- unguarded write (line 217): overwrites even a processed id
            let spouseY := IMAGE_HEIGHT + COUPLE_SPACING
            let stA := place st0 spouseId 0 spouseY
            let sdir := dirOfGender spouseNode.gender
            match exec tree fuel (Task.pss spouseId 0 spouseY sdir) stA [] with
            | none => none
            | some outP =>
              match exec tree fuel (Task.anc spouseId sdir) outP.1 [] with
              | none => none
              | some outA => some (outA.1, outA.2.1)
      match afterSpouse with
      | none => none
      | some (st1, miny1) => calcTail tree fuel rootId rootDir st1 miny1

/-! ### The Tree Structure Builder (`_build_tree_structure`) -/

/-- One as-child family record (`get_families_as_child()` entry). -/
structure FamC where
  father : Option Id
  mother : Option Id
deriving DecidableEq

/-- One as-spouse family record (`get_families()` entry, with the partner
and children projected to their GEDCOM pointers). -/
structure FamS where
  partner : Option Id
  children : List Id
deriving DecidableEq

/-- An individual, projected to the fields the layout engine consumes. -/
structure Indi where
  gender : String
  hasImage : Bool
  famc : List FamC
  fams : List FamS
deriving DecidableEq

/-- The `individual_map` lookup (pointer to individual). -/
abbrev IMap := List (Id × Indi)

/-- Intermediate record for processing one dequeued person: the three
relation lists under construction plus the ids to enqueue (with their
generations), in Python append order. -/
structure NodeAcc where
  spouses : List Id
  children : List Id
  parents : List Id
  enq : List (Id × Int)
deriving DecidableEq

/-- One `if family.get('father'/'mother')` step of `_build_tree_structure`
(lines 127-137): append a truthy parent id (no dedup), enqueue it one
generation earlier when unvisited. -/
def famcStep (visited : List Id) (gen : Int) (a : NodeAcc) (who : Option Id) : NodeAcc :=
  match who with
  | some w =>
    if w ≠ "" then
      { a with
        parents := a.parents ++ [w]
        enq := if w ∉ visited then a.enq ++ [(w, gen - 1)] else a.enq }
    else a
  | none => a

/-- Process the as-child families of a person (lines 124-137): father then
mother per family. -/
def procFamc (visited : List Id) (gen : Int) (acc : NodeAcc) : List FamC → NodeAcc
  | [] => acc
  | fam :: rest =>
    procFamc visited gen (famcStep visited gen (famcStep visited gen acc fam.father)
      fam.mother) rest

/-- The `for child in children` loop of `_build_tree_structure`
(lines 152-158): append each truthy child (deduplicated), enqueueing
unvisited ones one generation later. -/
def procChildren (visited : List Id) (gen : Int) : NodeAcc → List Id → NodeAcc
  | acc, [] => acc
  | acc, c :: rest =>
    let acc2 :=
      if c ≠ "" ∧ c ∉ acc.children then
        { acc with
          children := acc.children ++ [c]
          enq := if c ∉ visited then acc.enq ++ [(c, gen + 1)] else acc.enq }
      else acc
    procChildren visited gen acc2 rest

/-- The partner step of `_build_tree_structure` (lines 143-149): append a
truthy, not yet recorded partner, enqueueing it at the same generation when
unvisited. -/
def famsPartnerStep (visited : List Id) (gen : Int) (a : NodeAcc) (who : Option Id) :
    NodeAcc :=
  match who with
  | some s =>
    if s ≠ "" ∧ s ∉ a.spouses then
      { a with
        spouses := a.spouses ++ [s]
        enq := if s ∉ visited then a.enq ++ [(s, gen)] else a.enq }
    else a
  | none => a

/-- Process the as-spouse families of a person (lines 140-158): append the
partner (deduplicated) to `spouses` and every child (deduplicated) to
`children`, enqueueing unvisited ones at the same / next generation. -/
def procFams (visited : List Id) (gen : Int) (acc : NodeAcc) : List FamS → NodeAcc
  | [] => acc
  | fam :: rest =>
    procFams visited gen
      (procChildren visited gen (famsPartnerStep visited gen acc fam.partner) fam.children)
      rest

/-- Build the `TreeNode` for a freshly visited person and collect the new
queue entries. -/
def processNode (visited : List Id) (gen : Int) (ind : Indi) : TreeNode × List (Id × Int) :=
  let acc0 : NodeAcc := ⟨[], [], [], []⟩
  let acc1 := procFamc visited gen acc0 ind.famc
  let acc2 := procFams visited gen acc1 ind.fams
  (⟨ind.gender, ind.hasImage, gen, acc2.spouses, acc2.children, acc2.parents⟩, acc2.enq)

/-- Measure for BFS termination: people of the index not yet visited. -/
def unvisitedCount (imap : IMap) (visited : List Id) : Nat :=
  ((keysOf imap).filter (fun k => k ∉ visited)).length

theorem filter_length_mono {α : Type} (l : List α) (p q : α → Bool)
    (h : ∀ x, p x = true → q x = true) : (l.filter p).length ≤ (l.filter q).length := by
  induction l with
  | nil => simp
  | cons hd tl ih =>
    by_cases hp : p hd = true
    · rw [List.filter_cons_of_pos hp, List.filter_cons_of_pos (h _ hp)]
      simpa using ih
    · rw [List.filter_cons_of_neg (by simpa using hp)]
      by_cases hq : q hd = true
      · rw [List.filter_cons_of_pos hq]
        simp only [List.length_cons]
        omega
      · rw [List.filter_cons_of_neg (by simpa using hq)]
        exact ih

theorem filter_length_lt {α : Type} [DecidableEq α] (l : List α) (visited : List α) (a : α)
    (ha : a ∈ l) (hav : a ∉ visited) :
    (l.filter (fun k => k ∉ (a :: visited))).length <
      (l.filter (fun k => k ∉ visited)).length := by
  have hmono : ∀ tl : List α,
      (tl.filter (fun k => k ∉ (a :: visited))).length ≤
        (tl.filter (fun k => k ∉ visited)).length := by
    intro tl
    apply filter_length_mono
    intro x hx
    simp only [decide_eq_true_eq] at hx ⊢
    exact fun hm => hx (List.mem_cons_of_mem _ hm)
  induction l with
  | nil => simp at ha
  | cons hd tl ih =>
    by_cases hda : hd = a
    · rw [List.filter_cons_of_neg (by simp [hda]), List.filter_cons_of_pos (by simp [hda, hav])]
      simp only [List.length_cons]
      have := hmono tl
      omega
    · have hatl : a ∈ tl := by
        rcases List.mem_cons.mp ha with h | h
        · exact absurd h.symm hda
        · exact h
      by_cases hdv : hd ∈ visited
      · rw [List.filter_cons_of_neg (by simp [hdv]), List.filter_cons_of_neg (by simp [hdv])]
        exact ih hatl
      · rw [List.filter_cons_of_pos (by simp [hda, hdv]), List.filter_cons_of_pos (by simp [hdv])]
        simp only [List.length_cons]
        have := ih hatl
        omega

/-- The BFS loop of `_build_tree_structure` (lines 105-158). -/
def bfsBuild (imap : IMap) (queue : List (Id × Int)) (visited : List Id) (struc : Tree) :
    Tree :=
  match queue with
  | [] => struc
  | (pid, gen) :: rest =>
    if hv : pid ∈ visited then bfsBuild imap rest visited struc
    else
      match hm : alGet imap pid with
      | none => bfsBuild imap rest visited struc
      | some ind =>
        let visited2 := pid :: visited
        let res := processNode visited2 gen ind
        bfsBuild imap (rest ++ res.2) visited2 (struc ++ [(pid, res.1)])
termination_by (unvisitedCount imap visited, queue.length)
decreasing_by
  · apply Prod.Lex.right
    simp only [List.length_cons]
    omega
  · apply Prod.Lex.right
    simp only [List.length_cons]
    omega
  · apply Prod.Lex.left
    unfold unvisitedCount
    exact filter_length_lt _ _ _ (mem_keysOf_of_alGet_eq_some hm) hv

/-- `CanvasGenerator._build_tree_structure(root_id)`. -/
def buildTreeStructure (imap : IMap) (rootId : Id) : Tree :=
  bfsBuild imap [(rootId, 0)] [] []

/-! ### The Diagram Emitter (`_create_canvas_elements`, edge part) -/

/-- An emitted canvas edge, with endpoints identified by person id (the
random uuid node ids are a bijective renaming of the positioned persons). -/
structure Edge where
  fromId : Id
  toId : Id
  label : String
  fromSide : String
  toSide : String
  bidir : Bool
deriving DecidableEq

/-- A "Child" edge as emitted by `_create_canvas_elements` (line 1034). -/
def childEdge (pid c : Id) : Edge := ⟨pid, c, "Child", "left", "right", false⟩

/-- A "Spouse" edge as emitted by `_create_canvas_elements` (line 1042). -/
def spouseEdge (pid s : Id) : Edge := ⟨pid, s, "Spouse", "bottom", "top", true⟩

/-- The per-entry edge emission of `_create_canvas_elements`
(lines 1026-1042): skip unpositioned persons, emit "Child" edges to each
positioned child, then "Spouse" edges to each positioned spouse whose id
string-sorts above the person's. -/
def edgeStep (positions : List (Id × (Int × ℚ))) (acc : List Edge) (e : Id × TreeNode) :
    List Edge :=
  if (alGet positions e.1).isNone then acc
  else
    let acc1 :=
      e.2.children.foldl
        (fun a c =>
          if (alGet positions c).isSome then a ++ [childEdge e.1 c] else a)
        acc
    e.2.spouses.foldl
      (fun a s =>
        if (alGet positions s).isSome then
          if e.1 < s then a ++ [spouseEdge e.1 s] else a
        else a)
      acc1

/-- The edge-emission loop of `_create_canvas_elements` (lines 1025-1042). -/
def canvasEdges (positions : List (Id × (Int × ℚ))) (tree : Tree) : List Edge :=
  tree.foldl (edgeStep positions) []

/-- Layout-state invariant: positioned ids and processed ids coincide, and
all of them are keys of the structure map. -/
def Inv (tree : Tree) (st : LState) : Prop :=
  (∀ k, k ∈ keysOf st.positions ↔ k ∈ st.processed) ∧
  (∀ k, k ∈ st.processed → k ∈ keysOf tree)

/-- State evolution contract of every layout procedure: the invariant is
maintained, the processed set grows, and positions of already-processed
people are never overwritten. -/
def Evolves (tree : Tree) (st st2 : LState) : Prop :=
  (Inv tree st → Inv tree st2) ∧
  (∀ k, k ∈ st.processed → k ∈ st2.processed) ∧
  (∀ k v, k ∈ st.processed → alGet st.positions k = some v → alGet st2.positions k = some v)

/-- Structure for the C1 counterexample: female root `R`, parents `Fa`/`Mo`,
paternal grandparents `GF`/`GM` whose children include the uncles `U` and
`V`; `U`'s spouse `S` has a second partner `P`. -/
def c1tree : Tree :=
  [ ("R",  ⟨"F", true, 0,  [],         [],    ["Fa", "Mo"]⟩),
    ("Fa", ⟨"M", true, -1, ["Mo"],     ["R"], ["GF", "GM"]⟩),
    ("Mo", ⟨"F", true, -1, ["Fa"],     ["R"], []⟩),
    ("GF", ⟨"M", true, -2, ["GM"],     ["Fa", "U", "V"], []⟩),
    ("GM", ⟨"F", true, -2, ["GF"],     ["Fa", "U", "V"], []⟩),
    ("U",  ⟨"M", true, -1, ["S"],      [],    ["GF", "GM"]⟩),
    ("V",  ⟨"M", true, -1, [],         [],    ["GF", "GM"]⟩),
    ("S",  ⟨"F", true, -1, ["U", "P"], [],    []⟩),
    ("P",  ⟨"M", true, -1, ["S"],      [],    []⟩) ]

/-- Initial state of the C1 counterexample: only the root is placed, as in
`_calculate_positions` just before the main ancestor call. -/
def c1st0 : LState := ⟨[("R", ((0 : Int), (0 : ℚ)))], ["R"]⟩

/-- Structure for the C6 counterexample: a generation-0 root that records
itself as its own first spouse. -/
def c6tree : Tree := [("A", ⟨"F", true, 0, ["A"], [], []⟩)]

/-- A generation labelling of the relationship index: parents one earlier,
partners equal, children one later.  This captures acyclic, level-consistent
family data; the BFS generation assignment agrees with any such labelling. -/
def ConsistentGen (imap : IMap) (g : Id → Int) : Prop :=
  ∀ e ∈ imap,
    (∀ fam ∈ e.2.famc,
      (match fam.father with
        | some f => f ≠ "" → g f = g e.1 - 1
        | none => True) ∧
      (match fam.mother with
        | some m => m ≠ "" → g m = g e.1 - 1
        | none => True)) ∧
    (∀ fam ∈ e.2.fams,
      (match fam.partner with
        | some p => p ≠ "" → g p = g e.1
        | none => True) ∧
      (∀ c ∈ fam.children, c ≠ "" → g c = g e.1 + 1))

/-- Index for the C2 counterexample: `A`'s one as-spouse family lists `B`
both as partner and as child, so BFS reaches `B` at generation 0 through
the spouse edge before the child edge is considered. -/
def c2imap : IMap :=
  [("A", ⟨"M", true, [], [⟨some "B", ["B"]⟩]⟩), ("B", ⟨"F", true, [], []⟩)]

/-- The predicate "an edge labeled Spouse between the nodes of `a` and `b`"
(in either orientation). -/
def spouseBetween (a b : Id) (e : Edge) : Bool :=
  e.label == "Spouse" && ((e.fromId == a && e.toId == b) || (e.fromId == b && e.toId == a))

/-- A cyclic two-parent tree: `A` lists `B` as a parent and `B` lists `A`
back (GEDCOM files with corrupted `FAMC`/`FAMS` links can produce this).
`_layout_ancestors_right` recurses on both parents of a two-parent couple
with no `processed` guard (lines 530-533), so the layout never returns. -/
def cycTree : Tree :=
  [("A", ⟨"F", true, 0, [], [], ["B", "C"]⟩),
   ("B", ⟨"F", true, -1, [], [], ["A", "C"]⟩),
   ("C", ⟨"F", true, -1, [], [], []⟩)]

/-- The statement "the position calculation on `cycTree` runs out of fuel at
every fuel bound": the fueled interpreter's rendering of non-termination. -/
def cycNeverReturns : Prop := ∀ fuel : Nat, calcPositions cycTree fuel = none

/-- Two-person witness structure: a generation-0 root and one disconnected
person who must be swept into the fallback column. -/
def w4tree : Tree :=
  [("A", ⟨"F", true, 0, [], [], []⟩), ("B", ⟨"F", true, 1, [], [], []⟩)]

/-- Witness structure with no generation-0 node. -/
def w7tree : Tree := [("A", ⟨"F", true, 1, [], [], []⟩)]

/-- One-person witness structure. -/
def w8tree : Tree := [("A", ⟨"M", true, 0, [], [], []⟩)]

/-- Mutual spouse pair whose first member is the generation-0 root. -/
def w6tree : Tree :=
  [("A", ⟨"M", true, 0, ["B"], [], []⟩), ("B", ⟨"F", true, 0, ["A"], [], []⟩)]

/-- Male root with exactly two recorded parents. -/
def w9tree : Tree :=
  [("R", ⟨"M", true, 0, [], [], ["F", "M"]⟩),
   ("F", ⟨"M", true, 1, [], [], []⟩),
   ("M", ⟨"F", true, 1, [], [], []⟩)]

/-- Root with a two-parent couple, for the single-step no-overlap witness. -/
def w1tree : Tree :=
  [("R", ⟨"F", true, 0, [], [], ["F", "M"]⟩),
   ("F", ⟨"M", true, 1, [], [], []⟩),
   ("M", ⟨"F", true, 1, [], [], []⟩)]

/-- One person with three recorded parents. -/
def w10tree : Tree := [("X", ⟨"F", true, 0, [], [], ["P", "Q", "R"]⟩)]

/-- Acyclic witness index: `A` has one as-spouse family with child `B`, `B`
records `A` as father, and the labelling `A` at 0, `B` at 1 is consistent. -/
def c2wim : IMap :=
  [("A", ⟨"M", true, [], [⟨none, ["B"]⟩]⟩), ("B", ⟨"F", true, [⟨some "A", none⟩], []⟩)]

/-- The consistent generation labelling of `c2wim`. -/
def c2g : Id → Int := fun s => if s = "B" then 1 else 0

/-- Mutual spouse pair, both positioned, for the edge-count witness. -/
def w5tree : Tree :=
  [("A", ⟨"M", true, 0, ["B"], [], []⟩), ("B", ⟨"F", true, 0, ["A"], [], []⟩)]

/-- Positions for `w5tree`. -/
def w5pos : List (Id × (Int × ℚ)) :=
  [("A", ((0 : Int), (0 : ℚ))), ("B", ((0 : Int), (540 : ℚ)))]

/-- A generation-0 node whose key is the falsy empty string. -/
def c4tree : Tree := [("", ⟨"F", true, 0, [], [], []⟩)]

/-- A falsy-keyed male root that meets every other premise of the
parent-couple placement claim: no spouse, parents `["F", "M"]`. -/
def c9tree : Tree :=
  [("", ⟨"M", true, 0, [], [], ["F", "M"]⟩),
   ("F", ⟨"M", true, 1, [], [], []⟩),
   ("M", ⟨"F", true, 1, [], [], []⟩)]


theorem ev_refl (tree : Tree) (st : LState) : Evolves tree st st :=
  ⟨id, fun _ h => h, fun _ _ _ h => h⟩

theorem ev_trans {tree : Tree} {s1 s2 s3 : LState} (h12 : Evolves tree s1 s2)
    (h23 : Evolves tree s2 s3) : Evolves tree s1 s3 := by
  refine ⟨fun h => h23.1 (h12.1 h), fun k hk => h23.2.1 k (h12.2.1 k hk), ?_⟩
  intro k v hk hv
  exact h23.2.2 k v (h12.2.1 k hk) (h12.2.2 k v hk hv)

theorem ev_place {tree : Tree} {st : LState} {k : Id} {x : Int} {y : ℚ}
    (hk : k ∉ st.processed) (ht : (alGet tree k).isSome) :
    Evolves tree st (place st k x y) := by
  refine ⟨?_, ?_, ?_⟩
  · intro hinv
    constructor
    · intro k2
      simp only [place, mem_keysOf_alSet, List.mem_cons]
      rw [hinv.1 k2]
      tauto
    · intro k2 hk2
      simp only [place, List.mem_cons] at hk2
      rcases hk2 with h | h
      · subst h
        exact (alGet_isSome_iff_mem_keysOf tree k2).mp ht
      · exact hinv.2 k2 h
  · intro k2 hk2
    simp [place, hk2]
  · intro k2 v hk2 hv
    have hne : k2 ≠ k := fun h => hk (h ▸ hk2)
    simpa [place, alGet_alSet_ne _ _ _ _ hne] using hv

/-- The unguarded variant (the root-spouse write in `_calculate_positions`):
the invariant still propagates, but an overwrite is possible. -/
theorem inv_place {tree : Tree} {st : LState} {k : Id} {x : Int} {y : ℚ}
    (ht : (alGet tree k).isSome) (hinv : Inv tree st) : Inv tree (place st k x y) := by
  constructor
  · intro k2
    simp only [place, mem_keysOf_alSet, List.mem_cons]
    rw [hinv.1 k2]
    tauto
  · intro k2 hk2
    simp only [place, List.mem_cons] at hk2
    rcases hk2 with h | h
    · subst h
      exact (alGet_isSome_iff_mem_keysOf tree k2).mp ht
    · exact hinv.2 k2 h

theorem ev_ancCoupleStep (tree : Tree) (st : LState) (miny : MinY)
    (fatherId motherId : Id) (parentX : Int) (personY : ℚ) (dir : Dir) :
    Evolves tree st (ancCoupleStep tree st miny fatherId motherId parentX personY dir).1 := by
  unfold ancCoupleStep
  dsimp only
  split
  · rename_i h1
    split
    · rename_i h2
      exact ev_trans (ev_place h1.2 h1.1) (ev_place h2.2 h2.1)
    · exact ev_place h1.2 h1.1
  · split
    · rename_i h2
      exact ev_place h2.2 h2.1
    · exact ev_refl tree st

set_option maxHeartbeats 1000000 in
theorem exec_evolves (tree : Tree) :
    ∀ fuel task st miny out, exec tree fuel task st miny = some out →
      Evolves tree st out.1 := by
  intro fuel
  induction fuel with
  | zero =>
    intro task st miny out h
    simp [exec] at h
  | succ f ih =>
    intro task st miny out h
    cases task with
    | desc rootId =>
      simp only [exec] at h
      split at h
      · rename_i rootData rootPos hgt hgp
        split at h
        · cases h
          exact ev_refl tree st
        · exact ih _ _ _ _ h
      · cases h
        exact ev_refl tree st
    | descLoop children childX heights curY =>
      cases children with
      | nil =>
        simp only [exec] at h
        cases h
        exact ev_refl tree st
      | cons c rest =>
        simp only [exec] at h
        split at h
        · exact ih _ _ _ _ h
        · rename_i hcond
          push_neg at hcond
          split at h
          · exact ih _ _ _ _ h
          · rename_i childData hgc
            have hcs : (alGet tree c).isSome := by
              rcases hcond with ⟨h1, h2⟩
              rw [Option.isSome_iff_ne_none]
              simpa [Option.isNone_iff_eq_none] using h2
            split at h
            · exact absurd h (by simp)
            · rename_i st3 heq
              split at h
              · exact absurd h (by simp)
              · rename_i out4 heq2
                have hst3 : Evolves tree st st3 := by
                  cases hsp : childData.spouses with
                  | nil =>
                    rw [hsp] at heq
                    simp only at heq
                    cases heq
                    exact ev_place hcond.1 hcs
                  | cons s ss =>
                    rw [hsp] at heq
                    simp only at heq
                    split at heq
                    · rename_i hs
                      split at heq
                      · cases heq
                        exact ev_place hcond.1 hcs
                      · rename_i spouseNode hgs
                        split at heq
                        · exact absurd heq (by simp)
                        · rename_i out2 hpss
                          split at heq
                          · exact absurd heq (by simp)
                          · rename_i out3 hanc
                            cases heq
                            apply ev_trans (ev_place hcond.1 hcs)
                            apply ev_trans (ev_place hs.2 hs.1)
                            exact ev_trans (ih _ _ _ _ hpss) (ih _ _ _ _ hanc)
                    · cases heq
                      exact ev_place hcond.1 hcs
                exact ev_trans hst3 (ev_trans (ih _ _ _ _ heq2) (ih _ _ _ _ h))
    | anc rootId dir =>
      simp only [exec] at h
      split at h
      · rename_i personData personPos hgt hgp
        split at h
        · cases h
          exact ev_refl tree st
        · rename_i fatherId motherId hpar
          split at h
          · exact absurd h (by simp)
          · rename_i outF hF
            split at h
            · exact absurd h (by simp)
            · rename_i outM hM
              split at h
              · exact absurd h (by simp)
              · rename_i outRF hfin
                have hev1 : Evolves tree st outM.1 := by
                  apply ev_trans (ev_ancCoupleStep tree st miny fatherId motherId _ _ dir)
                  exact ev_trans (ih _ _ _ _ hF) (ih _ _ _ _ hM)
                have hev2 : Evolves tree outM.1 outRF.1 := by
                  split at hfin
                  · exact ih _ _ _ _ hfin
                  · cases hfin
                    exact ev_refl tree outM.1
                have hev3 : Evolves tree outRF.1 out.1 := by
                  split at h
                  · exact ih _ _ _ _ h
                  · cases h
                    exact ev_refl tree outRF.1
                exact ev_trans hev1 (ev_trans hev2 hev3)
        · rename_i parentId hpar
          split at h
          · rename_i hguard
            apply ev_trans (ev_place hguard.2 hguard.1)
            exact ih _ _ _ _ h
          · cases h
            exact ev_refl tree st
        · cases h
          exact ev_refl tree st
      · cases h
        exact ev_refl tree st
    | ancSibs sibs exclude dir parentX curY =>
      cases sibs with
      | nil =>
        simp only [exec] at h
        cases h
        exact ev_refl tree st
      | cons sib rest =>
        simp only [exec] at h
        split at h
        · exact ih _ _ _ _ h
        · rename_i hcond
          push_neg at hcond
          have hss : (alGet tree sib).isSome := by
            rw [Option.isSome_iff_ne_none]
            simpa [Option.isNone_iff_eq_none] using hcond.2.1
          split at h
          · exact ih _ _ _ _ h
          · rename_i sibData hgs
            cases hsp : sibData.spouses with
            | nil =>
              rw [hsp] at h
              simp only at h
              split at h
              · exact absurd h (by simp)
              · rename_i outD hD
                apply ev_trans (ev_place hcond.2.2 hss)
                exact ev_trans (ih _ _ _ _ hD) (ih _ _ _ _ h)
            | cons s ss =>
              rw [hsp] at h
              simp only at h
              by_cases hs : (alGet tree s).isSome ∧ s ∉ (place st sib parentX curY).processed
              · rw [if_pos hs] at h
                simp only at h
                split at h
                · exact absurd h (by simp)
                · rename_i outP hP
                  split at h
                  · exact absurd h (by simp)
                  · rename_i outD hD
                    apply ev_trans (ev_place hcond.2.2 hss)
                    apply ev_trans (ev_place hs.2 hs.1)
                    apply ev_trans (ih _ _ _ _ hP)
                    exact ev_trans (ih _ _ _ _ hD) (ih _ _ _ _ h)
              · rw [if_neg hs] at h
                simp only at h
                split at h
                · exact absurd h (by simp)
                · rename_i outD hD
                  apply ev_trans (ev_place hcond.2.2 hss)
                  exact ev_trans (ih _ _ _ _ hD) (ih _ _ _ _ h)
    | pss spouseId spouseX spouseY dir =>
      simp only [exec] at h
      split at h
      · cases h
        exact ev_refl tree st
      · split at h
        · exact absurd h (by simp)
        · rename_i out1 h1
          exact ev_trans (ih _ _ _ _ h1) (ih _ _ _ _ h)
    | pssPartners partners spouseX spouseY dir curY =>
      cases partners with
      | nil =>
        simp only [exec] at h
        cases h
        exact ev_refl tree st
      | cons p rest =>
        simp only [exec] at h
        split at h
        · rename_i hp
          split at h
          · exact absurd h (by simp)
          · rename_i out1 h1
            apply ev_trans (ev_place hp.2 hp.1)
            exact ev_trans (ih _ _ _ _ h1) (ih _ _ _ _ h)
        · exact ih _ _ _ _ h
    | pssInlaws sibs spouseX dir curY =>
      cases sibs with
      | nil =>
        simp only [exec] at h
        cases h
        exact ev_refl tree st
      | cons sib rest =>
        simp only [exec] at h
        split at h
        · rename_i hcond
          split at h
          · exact ih _ _ _ _ h
          · rename_i sibData hgs
            cases hsp : sibData.spouses with
            | nil =>
              rw [hsp] at h
              simp only at h
              split at h
              · exact absurd h (by simp)
              · rename_i outD hD
                apply ev_trans (ev_place hcond.2 hcond.1)
                exact ev_trans (ih _ _ _ _ hD) (ih _ _ _ _ h)
            | cons s ss =>
              rw [hsp] at h
              simp only at h
              by_cases hs : (alGet tree s).isSome ∧ s ∉ (place st sib spouseX curY).processed
              · rw [if_pos hs] at h
                simp only at h
                split at h
                · exact absurd h (by simp)
                · rename_i outD hD
                  apply ev_trans (ev_place hcond.2 hcond.1)
                  apply ev_trans (ev_place hs.2 hs.1)
                  exact ev_trans (ih _ _ _ _ hD) (ih _ _ _ _ h)
              · rw [if_neg hs] at h
                simp only at h
                split at h
                · exact absurd h (by simp)
                · rename_i outD hD
                  apply ev_trans (ev_place hcond.2 hcond.1)
                  exact ev_trans (ih _ _ _ _ hD) (ih _ _ _ _ h)
        · exact ih _ _ _ _ h
    | pssSibs sibs spouseX dir curY =>
      cases sibs with
      | nil =>
        simp only [exec] at h
        cases h
        exact ev_refl tree st
      | cons sib rest =>
        simp only [exec] at h
        split at h
        · rename_i hcond
          split at h
          · exact ih _ _ _ _ h
          · rename_i sibData hgs
            cases hsp : sibData.spouses with
            | nil =>
              rw [hsp] at h
              simp only at h
              split at h
              · exact absurd h (by simp)
              · rename_i outD hD
                apply ev_trans (ev_place hcond.2 hcond.1)
                exact ev_trans (ih _ _ _ _ hD) (ih _ _ _ _ h)
            | cons s ss =>
              rw [hsp] at h
              simp only at h
              by_cases hs : (alGet tree s).isSome ∧ s ∉ (place st sib spouseX curY).processed
              · rw [if_pos hs] at h
                simp only at h
                split at h
                · exact absurd h (by simp)
                · rename_i outD hD
                  apply ev_trans (ev_place hcond.2 hcond.1)
                  apply ev_trans (ev_place hs.2 hs.1)
                  exact ev_trans (ih _ _ _ _ hD) (ih _ _ _ _ h)
              · rw [if_neg hs] at h
                simp only at h
                split at h
                · exact absurd h (by simp)
                · rename_i outD hD
                  apply ev_trans (ev_place hcond.2 hcond.1)
                  exact ev_trans (ih _ _ _ _ hD) (ih _ _ _ _ h)
        · exact ih _ _ _ _ h

theorem alGet_eq_none_of_not_mem {κ α : Type} [DecidableEq κ] {l : List (κ × α)} {k : κ}
    (h : k ∉ keysOf l) : alGet l k = none := by
  cases hg : alGet l k with
  | none => rfl
  | some v => exact absurd (mem_keysOf_of_alGet_eq_some hg) h

theorem alGet_of_nodup_mem {κ α : Type} [DecidableEq κ] {l : List (κ × α)} {k : κ} {v : α}
    (hnd : (keysOf l).Nodup) (hm : (k, v) ∈ l) : alGet l k = some v := by
  induction l with
  | nil => simp at hm
  | cons hd tl ih =>
    obtain ⟨k2, v2⟩ := hd
    simp only [keysOf, List.map_cons, List.nodup_cons] at hnd
    rcases List.mem_cons.mp hm with h | h
    · rw [Prod.mk.injEq] at h
      simp only [alGet]
      rw [if_pos h.1.symm, h.2]
    · have hne : k2 ≠ k := by
        intro he
        subst he
        exact hnd.1 (by simpa [keysOf] using List.mem_map_of_mem Prod.fst h)
      simp only [alGet]
      rw [if_neg hne]
      exact ih hnd.2 h

theorem fallback_preserve (colX : Int) :
    ∀ (l : List Id) (st : LState) (curY : ℚ) (k : Id), k ∉ l →
      alGet (fallbackLoop st colX curY l).positions k = alGet st.positions k := by
  intro l
  induction l with
  | nil =>
    intro st curY k _
    simp [fallbackLoop]
  | cons p rest ih =>
    intro st curY k hk
    simp only [fallbackLoop]
    rw [ih _ _ _ (fun hm => hk (List.mem_cons_of_mem _ hm))]
    exact alGet_alSet_ne _ _ _ _ (fun he => hk (he ▸ List.mem_cons_self _ _))

theorem fallback_mem_keys (colX : Int) :
    ∀ (l : List Id) (st : LState) (curY : ℚ) (k : Id),
      (k ∈ l ∨ k ∈ keysOf st.positions) →
      k ∈ keysOf (fallbackLoop st colX curY l).positions := by
  intro l
  induction l with
  | nil =>
    intro st curY k hk
    simp only [fallbackLoop]
    rcases hk with h | h
    · simp at h
    · exact h
  | cons p rest ih =>
    intro st curY k hk
    simp only [fallbackLoop]
    apply ih
    rcases hk with h | h
    · rcases List.mem_cons.mp h with h2 | h2
      · subst h2
        right
        simp [place, mem_keysOf_alSet]
      · exact Or.inl h2
    · right
      simp [place, mem_keysOf_alSet]
      tauto

theorem fallback_inv (tree : Tree) (colX : Int) :
    ∀ (l : List Id) (st : LState) (curY : ℚ),
      Inv tree st → (∀ p ∈ l, p ∈ keysOf tree) →
      Inv tree (fallbackLoop st colX curY l) := by
  intro l
  induction l with
  | nil =>
    intro st curY hinv _
    simpa [fallbackLoop] using hinv
  | cons p rest ih =>
    intro st curY hinv hl
    simp only [fallbackLoop]
    apply ih
    · exact inv_place (by
        rw [alGet_isSome_iff_mem_keysOf]
        exact hl p (List.mem_cons_self _ _)) hinv
    · intro q hq
      exact hl q (List.mem_cons_of_mem _ hq)

/-- The initial layout state of `_calculate_positions`: the root at the origin. -/
theorem inv_init (tree : Tree) (rootId : Id) (hk : rootId ∈ keysOf tree) :
    Inv tree ⟨[(rootId, (0, 0))], [rootId]⟩ := by
  constructor
  · intro k
    simp [keysOf]
  · intro k hkp
    simp at hkp
    subst hkp
    exact hk

/-- Main bookkeeping of one `_calculate_positions` run: every returned key
is a structure key, and when the first generation-0 entry has a truthy
(non-empty) key every structure key is returned. -/
theorem calc_inv_keys {tree : Tree} {fuel : Nat} {res : List (Id × (Int × ℚ))}
    (h : calcPositions tree fuel = some res) :
    (∀ k, k ∈ keysOf res → k ∈ keysOf tree) ∧
    ((∃ root, findRoot tree = some root ∧ root.1 ≠ "") →
      ∀ k, k ∈ keysOf tree → k ∈ keysOf res) := by
  by_cases htne : tree = []
  · subst htne
    simp only [calcPositions, if_pos rfl] at h
    cases h
    constructor
    · intro k hk
      simp [keysOf] at hk
    · intro hr
      obtain ⟨r, hr1, hr2⟩ := hr
      simp [findRoot] at hr1
  · unfold calcPositions at h
    rw [if_neg htne] at h
    cases hroot : findRoot tree with
    | none =>
      rw [hroot] at h
      simp only at h
      cases h
      constructor
      · intro k hk
        simp [keysOf] at hk
      · intro hr
        obtain ⟨r, hr1, hr2⟩ := hr
        exact absurd hr1 (by simp)
    | some root =>
      rw [hroot] at h
      simp only at h
      by_cases hrne : root.1 = ""
      · rw [if_pos hrne] at h
        cases h
        constructor
        · intro k hk
          simp [keysOf] at hk
        · intro hr
          obtain ⟨r, hr1, hr2⟩ := hr
          injection hr1 with he
          subst he
          exact absurd hrne hr2
      · rw [if_neg hrne] at h
        have hrk : root.1 ∈ keysOf tree := by
          have := List.mem_of_find?_eq_some hroot
          exact List.mem_map_of_mem Prod.fst this
        have hinv0 : Inv tree ⟨[(root.1, (0, 0))], [root.1]⟩ := inv_init tree root.1 hrk
        suffices hsuf : ∀ (st1 : LState) (miny1 : MinY), Inv tree st1 →
            calcTail tree fuel root.1 (dirOfGender root.2.gender) st1 miny1 = some res →
            (∀ k, k ∈ keysOf res → k ∈ keysOf tree) ∧
            ((∃ root2, some root = some root2 ∧ root2.1 ≠ "") →
              ∀ k, k ∈ keysOf tree → k ∈ keysOf res) by
          cases hsp : root.2.spouses with
          | nil =>
            rw [hsp] at h
            simp only at h
            exact hsuf _ _ hinv0 h
          | cons s ss =>
            rw [hsp] at h
            simp only at h
            cases hgs : alGet tree s with
            | none =>
              rw [hgs] at h
              simp only at h
              exact hsuf _ _ hinv0 h
            | some sn =>
              rw [hgs] at h
              simp only at h
              split at h
              · exact absurd h (by simp)
              · rename_i st1x miny1x hAS
                split at hAS
                · exact absurd hAS (by simp)
                · rename_i outP hP
                  split at hAS
                  · exact absurd hAS (by simp)
                  · rename_i outA hA
                    cases hAS
                    apply hsuf _ _ _ h
                    have hinvA : Inv tree (place ⟨[(root.1, (0, 0))], [root.1]⟩ s 0
                        (IMAGE_HEIGHT + COUPLE_SPACING)) :=
                      inv_place (by simp [hgs]) hinv0
                    exact (exec_evolves tree _ _ _ _ _ hA).1
                      ((exec_evolves tree _ _ _ _ _ hP).1 hinvA)
        intro st1 miny1 hinv1 hcont
        unfold calcTail at hcont
        split at hcont
        · exact absurd hcont (by simp)
        · rename_i outD hD
          split at hcont
          · exact absurd hcont (by simp)
          · rename_i outA2 hA2
            have hinv3 : Inv tree outA2.1 :=
              (exec_evolves tree _ _ _ _ _ hA2).1 ((exec_evolves tree _ _ _ _ _ hD).1 hinv1)
            simp only at hcont
            split at hcont
            · rename_i hemp
              cases hcont
              constructor
              · intro k hk
                exact hinv3.2 k ((hinv3.1 k).mp hk)
              · intro _ k hk
                by_cases hkp : k ∈ outA2.1.processed
                · exact (hinv3.1 k).mpr hkp
                · exfalso
                  have : k ∈ (keysOf tree).filter (fun k => k ∉ outA2.1.processed) := by
                    rw [List.mem_filter]
                    exact ⟨hk, by simpa using hkp⟩
                  rw [hemp] at this
                  simp at this
            · rename_i hemp
              cases hcont
              have hsub : ∀ p ∈ (keysOf tree).filter (fun k => k ∉ outA2.1.processed),
                  p ∈ keysOf tree := by
                intro p hp
                exact (List.mem_filter.mp hp).1
              have hfinv : Inv tree (fallbackLoop outA2.1 (maxX outA2.1.positions + TREE_SPACING)
                  0 ((keysOf tree).filter (fun k => k ∉ outA2.1.processed))) :=
                fallback_inv tree _ _ _ _ hinv3 hsub
              constructor
              · intro k hk
                exact hfinv.2 k ((hfinv.1 k).mp hk)
              · intro _ k hk
                apply fallback_mem_keys
                by_cases hkp : k ∈ outA2.1.processed
                · exact Or.inr ((hinv3.1 k).mpr hkp)
                · refine Or.inl ?_
                  rw [List.mem_filter]
                  exact ⟨hk, by simpa using hkp⟩

theorem calcTail_preserve {tree : Tree} {fuel : Nat} {rootId : Id} {rdir : Dir}
    {st1 : LState} {miny1 : MinY} {res : List (Id × (Int × ℚ))}
    (h : calcTail tree fuel rootId rdir st1 miny1 = some res)
    {k : Id} {v : Int × ℚ} (hk : k ∈ st1.processed)
    (hv : alGet st1.positions k = some v) : alGet res k = some v := by
  unfold calcTail at h
  split at h
  · exact absurd h (by simp)
  · rename_i outD hD
    split at h
    · exact absurd h (by simp)
    · rename_i outA2 hA2
      have evD := exec_evolves tree _ _ _ _ _ hD
      have evA := exec_evolves tree _ _ _ _ _ hA2
      have hk3 : k ∈ outA2.1.processed := evA.2.1 _ (evD.2.1 _ hk)
      have hv3 : alGet outA2.1.positions k = some v :=
        evA.2.2 _ _ (evD.2.1 _ hk) (evD.2.2 _ _ hk hv)
      simp only at h
      split at h
      · cases h
        exact hv3
      · cases h
        rw [fallback_preserve]
        · exact hv3
        · intro hmem
          have := (List.mem_filter.mp hmem).2
          simp at this
          exact this hk3

/-- C4 (amended): when the first generation-0 entry's key is truthy (not
the empty string), a returned position map has exactly the structure map's
key set; the `if not root_id` test of line 189 otherwise returns the empty
map with the structure's keys missing from it. -/
theorem spec_c4_completeness {tree : Tree} {fuel : Nat} {res : List (Id × (Int × ℚ))}
    {root : Id × TreeNode}
    (hroot : findRoot tree = some root) (hne : root.1 ≠ "")
    (h : calcPositions tree fuel = some res) :
    ∀ k, k ∈ keysOf res ↔ k ∈ keysOf tree :=
  fun k => ⟨fun hk => (calc_inv_keys h).1 k hk,
    fun hk => (calc_inv_keys h).2 ⟨root, hroot, hne⟩ k hk⟩

/-- C7: a structure with no generation-0 node (in particular an empty one)
makes the Position Solver return an empty map without any failure. -/
theorem spec_c7_missing_root_empty {tree : Tree} (fuel : Nat)
    (h : ∀ e ∈ tree, e.2.generation ≠ 0) : calcPositions tree fuel = some [] := by
  by_cases ht : tree = []
  · subst ht
    simp [calcPositions]
  · unfold calcPositions
    rw [if_neg ht]
    have hfr : findRoot tree = none := by
      rw [findRoot, List.find?_eq_none]
      intro x hx
      simpa using h x hx
    rw [hfr]

/-- C3: the Position Solver is a pure function of the structure map (and
fuel), hence two runs on equal inputs agree bit for bit. -/
theorem spec_c3_determinism (t1 t2 : Tree) (fuel : Nat) (h : t1 = t2) :
    calcPositions t1 fuel = calcPositions t2 fuel := by
  rw [h]

/-- C8 (amended part): whenever the position calculation returns, every
positioned id is a key of the structure - lookups of relation ids missing
from the structure place nothing and raise nothing. -/
theorem spec_c8_positions_from_structure {tree : Tree} {fuel : Nat}
    {res : List (Id × (Int × ℚ))} (h : calcPositions tree fuel = some res) :
    ∀ k, k ∈ keysOf res → k ∈ keysOf tree :=
  (calc_inv_keys h).1

/-- C6 (amended): a first generation-0 entry with a truthy (non-empty) key
keeps position (0, 0) in the returned map, provided its first recorded
spouse is not the root itself (the unguarded root-spouse write of line 217
otherwise overwrites it, and a falsy root key returns the empty map). -/
theorem spec_c6_root_at_origin {tree : Tree} {fuel : Nat} {res : List (Id × (Int × ℚ))}
    {root : Id × TreeNode} (hroot : findRoot tree = some root)
    (hne : root.1 ≠ "")
    (hsp : root.2.spouses.head? ≠ some root.1)
    (h : calcPositions tree fuel = some res) :
    alGet res root.1 = some (0, 0) := by
  have htne : tree ≠ [] := by
    intro h0
    rw [h0] at hroot
    simp [findRoot] at hroot
  unfold calcPositions at h
  rw [if_neg htne, hroot] at h
  simp only at h
  rw [if_neg hne] at h
  have hst0 : alGet (⟨[(root.1, (0, 0))], [root.1]⟩ : LState).positions root.1
      = some (0, 0) := by
    simp [alGet]
  have hst0p : root.1 ∈ (⟨[(root.1, (0, 0))], [root.1]⟩ : LState).processed := by
    simp
  cases hspl : root.2.spouses with
  | nil =>
    rw [hspl] at h
    simp only at h
    exact calcTail_preserve h hst0p hst0
  | cons s ss =>
    rw [hspl] at h
    simp only at h
    have hsne : s ≠ root.1 := by
      rw [hspl] at hsp
      simpa using hsp
    cases hgs : alGet tree s with
    | none =>
      rw [hgs] at h
      simp only at h
      exact calcTail_preserve h hst0p hst0
    | some sn =>
      rw [hgs] at h
      simp only at h
      split at h
      · exact absurd h (by simp)
      · rename_i st1x miny1x hAS
        split at hAS
        · exact absurd hAS (by simp)
        · rename_i outP hP
          split at hAS
          · exact absurd hAS (by simp)
          · rename_i outA hA
            cases hAS
            have evP := exec_evolves tree _ _ _ _ _ hP
            have evA := exec_evolves tree _ _ _ _ _ hA
            have hstA : alGet (place ⟨[(root.1, (0, 0))], [root.1]⟩ s 0
                (IMAGE_HEIGHT + COUPLE_SPACING)).positions root.1 = some (0, 0) := by
              simp only [place]
              rw [alGet_alSet_ne _ _ _ _ (fun he => hsne he.symm)]
              exact hst0
            have hstAp : root.1 ∈ (place ⟨[(root.1, (0, 0))], [root.1]⟩ s 0
                (IMAGE_HEIGHT + COUPLE_SPACING)).processed := by
              simp [place]
            have h1 : alGet outP.1.positions root.1 = some (0, 0) :=
              evP.2.2 _ _ hstAp hstA
            have h1p : root.1 ∈ outP.1.processed := evP.2.1 _ hstAp
            have h2 : alGet outA.1.positions root.1 = some (0, 0) :=
              evA.2.2 _ _ h1p h1
            have h2p : root.1 ∈ outA.1.processed := evA.2.1 _ h1p
            exact calcTail_preserve h h2p h2

/-- C9 (amended): truthy-keyed male root with no spouse, no children and
parents `[f, m]`: the
solver puts the father at `(G_gen, 0)` and the mother one couple offset
upward, at `(G_gen, 0 - H_img - G_couple)`. -/
theorem spec_c9_parent_couple_male_root {tree : Tree} {fuel : Nat}
    {res : List (Id × (Int × ℚ))} {root : Id × TreeNode} {f m : Id} {nf nm : TreeNode}
    (hnd : (keysOf tree).Nodup)
    (hroot : findRoot tree = some root)
    (hne : root.1 ≠ "")
    (hg : root.2.gender = "M")
    (hsp : root.2.spouses = [])
    (hch : root.2.children = [])
    (hpar : root.2.parents = [f, m])
    (hgf : alGet tree f = some nf) (hgm : alGet tree m = some nm)
    (hfr : f ≠ root.1) (hmr : m ≠ root.1) (hmf : m ≠ f)
    (h : calcPositions tree fuel = some res) :
    alGet res f = some (GENERATION_SPACING, 0) ∧
    alGet res m = some (GENERATION_SPACING, 0 - IMAGE_HEIGHT - COUPLE_SPACING) := by
  have htne : tree ≠ [] := by
    intro h0
    rw [h0] at hroot
    simp [findRoot] at hroot
  have htree : alGet tree root.1 = some root.2 :=
    alGet_of_nodup_mem hnd (List.mem_of_find?_eq_some hroot)
  have hdirr : dirOfGender root.2.gender = Dir.up := by
    rw [hg]
    rfl
  unfold calcPositions at h
  rw [if_neg htne, hroot] at h
  simp only at h
  rw [if_neg hne] at h
  rw [hsp, hdirr] at h
  simp only at h
  unfold calcTail at h
  cases fuel with
  | zero =>
    rw [show exec tree 0 (Task.desc root.1) ⟨[(root.1, (0, 0))], [root.1]⟩ [] = none
      from rfl] at h
    exact absurd h (by simp)
  | succ f2 =>
    have hdesc : exec tree (f2 + 1) (Task.desc root.1) ⟨[(root.1, (0, 0))], [root.1]⟩ []
        = some (⟨[(root.1, (0, 0))], [root.1]⟩, [], 0) := by
      simp only [exec]
      rw [htree]
      simp [alGet, hch]
    rw [hdesc] at h
    simp only at h
    cases hA : exec tree (f2 + 1) (Task.anc root.1 Dir.up) ⟨[(root.1, (0, 0))], [root.1]⟩ []
      with
    | none =>
      rw [hA] at h
      exact absurd h (by simp)
    | some outA =>
      rw [hA] at h
      simp only at h
      -- unfold the couple step of the ancestor call
      simp only [exec] at hA
      rw [htree] at hA
      have hpos0 : alGet (⟨[(root.1, (0, 0))], [root.1]⟩ : LState).positions root.1
          = some ((0 : Int), (0 : ℚ)) := by
        simp [alGet]
      rw [hpos0] at hA
      simp only at hA
      rw [hpar] at hA
      simp only at hA
      have hfm : f ≠ m := fun he => hmf he.symm
      have hcpl1 : (ancCoupleStep tree ⟨[(root.1, (0, 0))], [root.1]⟩ [] f m
          ((0 : Int) + GENERATION_SPACING) 0 Dir.up).1 =
          place (place ⟨[(root.1, (0, 0))], [root.1]⟩ f ((0 : Int) + GENERATION_SPACING) 0)
            m ((0 : Int) + GENERATION_SPACING) (0 - IMAGE_HEIGHT - COUPLE_SPACING) := by
        unfold ancCoupleStep
        simp only [alGet_nil]
        rw [if_pos (And.intro (show (alGet tree f).isSome = true by simp [hgf])
          (show f ∉ (⟨[(root.1, (0, 0))], [root.1]⟩ : LState).processed from
            (show f ∉ [root.1] by simp [hfr])))]
        rw [if_pos (And.intro (show (alGet tree m).isSome = true by simp [hgm])
          (show m ∉ (place ⟨[(root.1, (0, 0))], [root.1]⟩ f ((0 : Int) + GENERATION_SPACING)
              0).processed from (show m ∉ [f, root.1] by simp [hmf, hmr])))]
      have hfv : alGet (ancCoupleStep tree ⟨[(root.1, (0, 0))], [root.1]⟩ [] f m
          ((0 : Int) + GENERATION_SPACING) 0 Dir.up).1.positions f =
          some ((0 : Int) + GENERATION_SPACING, (0 : ℚ)) := by
        rw [hcpl1]
        simp only [place]
        rw [alGet_alSet_ne _ _ _ _ hfm, alGet_alSet_self]
      have hmv : alGet (ancCoupleStep tree ⟨[(root.1, (0, 0))], [root.1]⟩ [] f m
          ((0 : Int) + GENERATION_SPACING) 0 Dir.up).1.positions m =
          some ((0 : Int) + GENERATION_SPACING, 0 - IMAGE_HEIGHT - COUPLE_SPACING) := by
        rw [hcpl1]
        simp only [place]
        rw [alGet_alSet_self]
      have hfp : f ∈ (ancCoupleStep tree ⟨[(root.1, (0, 0))], [root.1]⟩ [] f m
          ((0 : Int) + GENERATION_SPACING) 0 Dir.up).1.processed := by
        rw [hcpl1]
        simp [place]
      have hmp : m ∈ (ancCoupleStep tree ⟨[(root.1, (0, 0))], [root.1]⟩ [] f m
          ((0 : Int) + GENERATION_SPACING) 0 Dir.up).1.processed := by
        rw [hcpl1]
        simp [place]
      split at hA
      · exact absurd hA (by simp)
      · rename_i outF hF
        split at hA
        · exact absurd hA (by simp)
        · rename_i outM hM
          split at hA
          · exact absurd hA (by simp)
          · rename_i outRF hfin
            rw [if_pos (by simp [hgf] : (alGet tree f).isSome = true)] at hfin
            rw [if_pos (by simp [hgm] : (alGet tree m).isSome = true)] at hA
            have evF := exec_evolves tree _ _ _ _ _ hF
            have evM := exec_evolves tree _ _ _ _ _ hM
            have evRF := exec_evolves tree _ _ _ _ _ hfin
            have evLast := exec_evolves tree _ _ _ _ _ hA
            have hfp4 : f ∈ outA.1.processed :=
              evLast.2.1 _ (evRF.2.1 _ (evM.2.1 _ (evF.2.1 _ hfp)))
            have hmp4 : m ∈ outA.1.processed :=
              evLast.2.1 _ (evRF.2.1 _ (evM.2.1 _ (evF.2.1 _ hmp)))
            have hfv4 : alGet outA.1.positions f =
                some ((0 : Int) + GENERATION_SPACING, (0 : ℚ)) :=
              evLast.2.2 _ _ (evRF.2.1 _ (evM.2.1 _ (evF.2.1 _ hfp)))
                (evRF.2.2 _ _ (evM.2.1 _ (evF.2.1 _ hfp))
                  (evM.2.2 _ _ (evF.2.1 _ hfp) (evF.2.2 _ _ hfp hfv)))
            have hmv4 : alGet outA.1.positions m =
                some ((0 : Int) + GENERATION_SPACING, 0 - IMAGE_HEIGHT - COUPLE_SPACING) :=
              evLast.2.2 _ _ (evRF.2.1 _ (evM.2.1 _ (evF.2.1 _ hmp)))
                (evRF.2.2 _ _ (evM.2.1 _ (evF.2.1 _ hmp))
                  (evM.2.2 _ _ (evF.2.1 _ hmp) (evF.2.2 _ _ hmp hmv)))
            have hres : ∀ k v, k ∈ outA.1.processed → alGet outA.1.positions k = some v →
                alGet res k = some v := by
              intro k v hkp hkv
              split at h
              · cases h
                exact hkv
              · cases h
                rw [fallback_preserve]
                · exact hkv
                · intro hmem
                  have := (List.mem_filter.mp hmem).2
                  simp at this
                  exact this hkp
            constructor
            · have := hres f _ hfp4 hfv4
              simpa using this
            · have := hres m _ hmp4 hmv4
              simpa using this

theorem nodeHeight_le (n : TreeNode) : nodeHeight n ≤ IMAGE_HEIGHT := by
  unfold nodeHeight NODE_BASE_HEIGHT IMAGE_HEIGHT
  split
  · exact le_refl _
  · norm_num

theorem couple_spacing_pos : (0 : ℚ) < COUPLE_SPACING := by
  norm_num [COUPLE_SPACING]

/-- The parent-couple step always separates father and mother by exactly
one couple offset in the growth direction (the claimed-band adjustment for
the mother is vacuous because the father already sits on the claimed y). -/
theorem ancCoupleStep_couple {tree : Tree} {st : LState} {miny : MinY} {f m : Id}
    {nf nm : TreeNode} (parentX : Int) (personY : ℚ) (dir : Dir)
    (hgf : alGet tree f = some nf) (hgm : alGet tree m = some nm)
    (hfp : f ∉ st.processed) (hmp : m ∉ st.processed) (hmf : m ≠ f) :
    ∃ parentY : ℚ,
      (ancCoupleStep tree st miny f m parentX personY dir).1 =
        place (place st f parentX parentY) m parentX (coupleOffset dir parentY) := by
  cases hk : alGet miny (parentX, dir) with
  | none =>
    refine ⟨personY, ?_⟩
    unfold ancCoupleStep
    simp only [hk]
    rw [if_pos (And.intro (show (alGet tree f).isSome = true by simp [hgf]) hfp)]
    rw [if_pos (And.intro (show (alGet tree m).isSome = true by simp [hgm])
      (show m ∉ (place st f parentX personY).processed from (by simp [place, hmp, hmf])))]
    cases dir <;> rfl
  | some b =>
    refine ⟨b, ?_⟩
    unfold ancCoupleStep
    simp only [hk]
    rw [if_pos (And.intro (show (alGet tree f).isSome = true by simp [hgf]) hfp)]
    rw [if_pos (And.intro (show (alGet tree m).isSome = true by simp [hgm])
      (show m ∉ (place st f parentX b).processed from (by simp [place, hmp, hmf])))]
    cases dir with
    | up =>
      simp only
      rw [if_neg (show ¬ b < b - IMAGE_HEIGHT - COUPLE_SPACING by
        push_neg
        have h1 : (0 : ℚ) < IMAGE_HEIGHT := by norm_num [IMAGE_HEIGHT]
        have h2 := couple_spacing_pos
        linarith)]
      rfl
    | down =>
      simp only
      rw [if_neg (show ¬ b + IMAGE_HEIGHT + COUPLE_SPACING < b by
        push_neg
        have h1 : (0 : ℚ) < IMAGE_HEIGHT := by norm_num [IMAGE_HEIGHT]
        have h2 := couple_spacing_pos
        linarith)]
      rfl

/-- C1 (amended): the father and the mother placed by a single two-parent
ancestor step end up at the same x with vertical extents that never
overlap (they are one `H_img + G_couple` offset apart). -/
theorem spec_c1_parent_couple_no_overlap {tree : Tree} {fuel : Nat} {st : LState}
    {miny : MinY} {out : LState × MinY × ℚ} {rootId f m : Id} {node nf nm : TreeNode}
    {dir : Dir} {pos : Int × ℚ}
    (htree : alGet tree rootId = some node)
    (hpar : node.parents = [f, m])
    (hgf : alGet tree f = some nf) (hgm : alGet tree m = some nm)
    (hfp : f ∉ st.processed) (hmp : m ∉ st.processed) (hmf : m ≠ f)
    (hpos : alGet st.positions rootId = some pos)
    (h : exec tree fuel (Task.anc rootId dir) st miny = some out) :
    ∃ x yf ym, alGet out.1.positions f = some (x, yf) ∧
      alGet out.1.positions m = some (x, ym) ∧
      (yf + nodeHeight nf ≤ ym ∨ ym + nodeHeight nm ≤ yf) := by
  cases fuel with
  | zero => exact absurd h (by simp [exec])
  | succ f2 =>
    simp only [exec] at h
    rw [htree, hpos] at h
    simp only at h
    rw [hpar] at h
    simp only at h
    have hfm : f ≠ m := fun he => hmf he.symm
    obtain ⟨parentY, hcpl⟩ := @ancCoupleStep_couple tree st miny f m nf nm
      (pos.1 + GENERATION_SPACING) pos.2 dir hgf hgm hfp hmp hmf
    have hfv : alGet (ancCoupleStep tree st miny f m (pos.1 + GENERATION_SPACING) pos.2
        dir).1.positions f = some (pos.1 + GENERATION_SPACING, parentY) := by
      rw [hcpl]
      simp only [place]
      rw [alGet_alSet_ne _ _ _ _ hfm, alGet_alSet_self]
    have hmv : alGet (ancCoupleStep tree st miny f m (pos.1 + GENERATION_SPACING) pos.2
        dir).1.positions m
        = some (pos.1 + GENERATION_SPACING, coupleOffset dir parentY) := by
      rw [hcpl]
      simp only [place]
      rw [alGet_alSet_self]
    have hfpp : f ∈ (ancCoupleStep tree st miny f m (pos.1 + GENERATION_SPACING) pos.2
        dir).1.processed := by
      rw [hcpl]
      simp [place]
    have hmpp : m ∈ (ancCoupleStep tree st miny f m (pos.1 + GENERATION_SPACING) pos.2
        dir).1.processed := by
      rw [hcpl]
      simp [place]
    split at h
    · exact absurd h (by simp)
    · rename_i outF hF
      split at h
      · exact absurd h (by simp)
      · rename_i outM hM
        split at h
        · exact absurd h (by simp)
        · rename_i outRF hfin
          rw [if_pos (show (alGet tree f).isSome = true by simp [hgf])] at hfin
          rw [if_pos (show (alGet tree m).isSome = true by simp [hgm])] at h
          have evF := exec_evolves tree _ _ _ _ _ hF
          have evM := exec_evolves tree _ _ _ _ _ hM
          have evRF := exec_evolves tree _ _ _ _ _ hfin
          have evLast := exec_evolves tree _ _ _ _ _ h
          refine ⟨pos.1 + GENERATION_SPACING, parentY, coupleOffset dir parentY, ?_, ?_, ?_⟩
          · exact evLast.2.2 _ _ (evRF.2.1 _ (evM.2.1 _ (evF.2.1 _ hfpp)))
              (evRF.2.2 _ _ (evM.2.1 _ (evF.2.1 _ hfpp))
                (evM.2.2 _ _ (evF.2.1 _ hfpp) (evF.2.2 _ _ hfpp hfv)))
          · exact evLast.2.2 _ _ (evRF.2.1 _ (evM.2.1 _ (evF.2.1 _ hmpp)))
              (evRF.2.2 _ _ (evM.2.1 _ (evF.2.1 _ hmpp))
                (evM.2.2 _ _ (evF.2.1 _ hmpp) (evF.2.2 _ _ hmpp hmv)))
          · have h1 := nodeHeight_le nm
            have h2 := nodeHeight_le nf
            have h3 := couple_spacing_pos
            cases dir with
            | up =>
              right
              simp only [coupleOffset]
              linarith
            | down =>
              left
              simp only [coupleOffset]
              linarith

/-- C10: a recorded parent list of length three or more falls through both
branches of the ancestor layout: the call leaves the layout state and the
collision map untouched, so none of those parents is placed by it. -/
theorem spec_c10_three_parents_unplaced {tree : Tree} {fuel : Nat} {st : LState}
    {miny : MinY} {out : LState × MinY × ℚ} {rootId : Id} {node : TreeNode} {dir : Dir}
    (htree : alGet tree rootId = some node)
    (hlen : 3 ≤ node.parents.length)
    (h : exec tree fuel (Task.anc rootId dir) st miny = some out) :
    out.1 = st ∧ out.2.1 = miny := by
  cases fuel with
  | zero => exact absurd h (by simp [exec])
  | succ f2 =>
    simp only [exec] at h
    rw [htree] at h
    cases hp : alGet st.positions rootId with
    | none =>
      rw [hp] at h
      simp only at h
      cases h
      exact ⟨rfl, rfl⟩
    | some pos =>
      rw [hp] at h
      simp only at h
      cases hpar : node.parents with
      | nil =>
        rw [hpar] at hlen
        simp at hlen
      | cons a t1 =>
        cases t1 with
        | nil =>
          rw [hpar] at hlen
          simp at hlen
        | cons b t2 =>
          cases t2 with
          | nil =>
            rw [hpar] at hlen
            simp at hlen
          | cons c t3 =>
            rw [hpar] at h
            simp only at h
            cases h
            exact ⟨rfl, rfl⟩

/-- C1 counterexample: one ancestor-layout recursion (one shared
`min_y_at_x` map, direction `down` throughout) places `P` (the partner of
uncle `U`'s spouse, laid out by the sibling-in-law chain, which bypasses
the collision map) at `(680, 2275)` and uncle `V` at `(680, 2390)`: same x,
same direction, both 350 tall, and the bands `[2275, 2625]` and
`[2390, 2740]` overlap. -/
theorem spec_c1_counterexample :
    (exec c1tree 60 (Task.anc "R" Dir.down) c1st0 []).map
        (fun out => (alGet out.1.positions "P", alGet out.1.positions "V"))
      = some (some (680, 2275), some (680, 2390)) ∧
    ((alGet c1tree "P").map nodeHeight = some 350 ∧
      (alGet c1tree "V").map nodeHeight = some 350) ∧
    ((2275 : ℚ) < 2390 + 350 ∧ (2390 : ℚ) < 2275 + 350) ∧
    ("P" ∉ c1st0.processed ∧ "V" ∉ c1st0.processed) := by
  decide

/-- C6 counterexample: the unguarded root-spouse write of line 217
overwrites the root's `(0, 0)` with the spouse slot `(0, H_img+G_couple)`,
so the first generation-0 key does not end at the origin. -/
theorem spec_c6_counterexample :
    calcPositions c6tree 10 = some [("A", ((0 : Int), IMAGE_HEIGHT + COUPLE_SPACING))] ∧
    findRoot c6tree = some ("A", ⟨"F", true, 0, ["A"], [], []⟩) ∧
    some ((0 : Int), IMAGE_HEIGHT + COUPLE_SPACING) ≠ some ((0 : Int), (0 : ℚ)) := by
  decide

theorem procChildren_ok (g : Id → Int) (visited : List Id) (gen : Int) :
    ∀ (cs : List Id) (acc : NodeAcc),
      (∀ c ∈ cs, c ≠ "" → g c = gen + 1) →
      (∀ c ∈ acc.children, g c = gen + 1) →
      (∀ qe ∈ acc.enq, qe.2 = g qe.1) →
      (∀ c ∈ (procChildren visited gen acc cs).children, g c = gen + 1) ∧
      (∀ qe ∈ (procChildren visited gen acc cs).enq, qe.2 = g qe.1) := by
  intro cs
  induction cs with
  | nil =>
    intro acc h1 h2 h3
    exact ⟨h2, h3⟩
  | cons c rest ih =>
    intro acc h1 h2 h3
    simp only [procChildren]
    split
    · rename_i hcnd
      apply ih
      · intro c2 hc2
        exact h1 c2 (List.mem_cons_of_mem _ hc2)
      · intro c2 hc2
        simp at hc2
        rcases hc2 with hm | hm
        · exact h2 c2 (by simpa using hm)
        · subst hm
          exact h1 c2 (List.mem_cons_self _ _) hcnd.1
      · intro qe hqe
        by_cases hcv : c ∉ visited
        · rw [if_pos hcv] at hqe
          simp at hqe
          rcases hqe with hm | hm
          · exact h3 qe (by simpa using hm)
          · rw [hm]
            simp
            exact (h1 c (List.mem_cons_self _ _) hcnd.1).symm
        · rw [if_neg hcv] at hqe
          exact h3 qe hqe
    · apply ih
      · intro c2 hc2
        exact h1 c2 (List.mem_cons_of_mem _ hc2)
      · exact h2
      · exact h3

theorem famcStep_ok (g : Id → Int) (visited : List Id) (gen : Int) (a : NodeAcc)
    (who : Option Id)
    (hwho : match who with
      | some w => w ≠ "" → g w = gen - 1
      | none => True)
    (ha : ∀ qe ∈ a.enq, qe.2 = g qe.1) :
    (∀ qe ∈ (famcStep visited gen a who).enq, qe.2 = g qe.1) ∧
    (famcStep visited gen a who).children = a.children := by
  cases who with
  | none => exact ⟨ha, rfl⟩
  | some w =>
    simp only [famcStep]
    by_cases hw : w ≠ ""
    · rw [if_pos hw]
      refine ⟨?_, rfl⟩
      intro qe hqe
      by_cases hwv : w ∉ visited
      · simp only [if_pos hwv] at hqe
        simp at hqe
        rcases hqe with hm | hm
        · exact ha qe (by simpa using hm)
        · rw [hm]
          simp
          exact (hwho hw).symm
      · simp only [if_neg hwv] at hqe
        exact ha qe hqe
    · rw [if_neg hw]
      exact ⟨ha, rfl⟩

theorem procFamc_ok (g : Id → Int) (visited : List Id) (gen : Int) :
    ∀ (fams : List FamC) (acc : NodeAcc),
      (∀ fam ∈ fams,
        (match fam.father with
          | some f => f ≠ "" → g f = gen - 1
          | none => True) ∧
        (match fam.mother with
          | some m => m ≠ "" → g m = gen - 1
          | none => True)) →
      (∀ qe ∈ acc.enq, qe.2 = g qe.1) →
      (∀ qe ∈ (procFamc visited gen acc fams).enq, qe.2 = g qe.1) ∧
      (procFamc visited gen acc fams).children = acc.children := by
  intro fams
  induction fams with
  | nil =>
    intro acc _ h3
    exact ⟨h3, rfl⟩
  | cons fam rest ih =>
    intro acc h1 h3
    have hfam := h1 fam (List.mem_cons_self _ _)
    have hrest : ∀ fam2 ∈ rest,
        (match fam2.father with
          | some f => f ≠ "" → g f = gen - 1
          | none => True) ∧
        (match fam2.mother with
          | some m => m ≠ "" → g m = gen - 1
          | none => True) := by
      intro fam2 hm
      exact h1 fam2 (List.mem_cons_of_mem _ hm)
    simp only [procFamc]
    have hstep1 := famcStep_ok g visited gen acc fam.father hfam.1 h3
    have hstep2 := famcStep_ok g visited gen _ fam.mother hfam.2 hstep1.1
    obtain ⟨henq, hch⟩ := ih _ hrest hstep2.1
    refine ⟨henq, ?_⟩
    rw [hch, hstep2.2, hstep1.2]

theorem famsPartnerStep_ok (g : Id → Int) (visited : List Id) (gen : Int) (a : NodeAcc)
    (who : Option Id)
    (hwho : match who with
      | some p => p ≠ "" → g p = gen
      | none => True)
    (ha2 : ∀ c ∈ a.children, g c = gen + 1)
    (ha3 : ∀ qe ∈ a.enq, qe.2 = g qe.1) :
    (∀ c ∈ (famsPartnerStep visited gen a who).children, g c = gen + 1) ∧
    (∀ qe ∈ (famsPartnerStep visited gen a who).enq, qe.2 = g qe.1) := by
  cases who with
  | none => exact ⟨ha2, ha3⟩
  | some s =>
    simp only [famsPartnerStep]
    by_cases hs : s ≠ "" ∧ s ∉ a.spouses
    · rw [if_pos hs]
      refine ⟨ha2, ?_⟩
      intro qe hqe
      by_cases hsv : s ∉ visited
      · simp only [if_pos hsv] at hqe
        simp at hqe
        rcases hqe with hm | hm
        · exact ha3 qe (by simpa using hm)
        · rw [hm]
          simp
          exact (hwho hs.1).symm
      · simp only [if_neg hsv] at hqe
        exact ha3 qe hqe
    · rw [if_neg hs]
      exact ⟨ha2, ha3⟩

theorem procFams_ok (g : Id → Int) (visited : List Id) (gen : Int) :
    ∀ (fams : List FamS) (acc : NodeAcc),
      (∀ fam ∈ fams,
        (match fam.partner with
          | some p => p ≠ "" → g p = gen
          | none => True) ∧
        (∀ c ∈ fam.children, c ≠ "" → g c = gen + 1)) →
      (∀ c ∈ acc.children, g c = gen + 1) →
      (∀ qe ∈ acc.enq, qe.2 = g qe.1) →
      (∀ c ∈ (procFams visited gen acc fams).children, g c = gen + 1) ∧
      (∀ qe ∈ (procFams visited gen acc fams).enq, qe.2 = g qe.1) := by
  intro fams
  induction fams with
  | nil =>
    intro acc _ h2 h3
    exact ⟨h2, h3⟩
  | cons fam rest ih =>
    intro acc h1 h2 h3
    have hfam := h1 fam (List.mem_cons_self _ _)
    simp only [procFams]
    have hstep := famsPartnerStep_ok g visited gen acc fam.partner hfam.1 h2 h3
    have hchild := procChildren_ok g visited gen fam.children _ hfam.2 hstep.1 hstep.2
    exact ih _ (fun fam2 hm => h1 fam2 (List.mem_cons_of_mem _ hm)) hchild.1 hchild.2

theorem processNode_ok {imap : IMap} {g : Id → Int} (hc : ConsistentGen imap g)
    {pid : Id} {ind : Indi} (hmem : (pid, ind) ∈ imap) (visited : List Id) (gen : Int)
    (hgen : gen = g pid) :
    (processNode visited gen ind).1.generation = gen ∧
    (∀ c ∈ (processNode visited gen ind).1.children, g c = gen + 1) ∧
    (∀ qe ∈ (processNode visited gen ind).2, qe.2 = g qe.1) := by
  have hce := hc (pid, ind) hmem
  have hfc : ∀ fam ∈ ind.famc,
      (match fam.father with
        | some f => f ≠ "" → g f = gen - 1
        | none => True) ∧
      (match fam.mother with
        | some m => m ≠ "" → g m = gen - 1
        | none => True) := by
    intro fam hfam
    rw [hgen]
    exact hce.1 fam hfam
  have hfs : ∀ fam ∈ ind.fams,
      (match fam.partner with
        | some p => p ≠ "" → g p = gen
        | none => True) ∧
      (∀ c ∈ fam.children, c ≠ "" → g c = gen + 1) := by
    intro fam hfam
    rw [hgen]
    exact hce.2 fam hfam
  have h1 := procFamc_ok g visited gen ind.famc ⟨[], [], [], []⟩ hfc (by simp)
  have h2 := procFams_ok g visited gen ind.fams _ hfs (by rw [h1.2]; simp) h1.1
  exact ⟨rfl, h2.1, h2.2⟩

/-- BFS generation invariant: under a consistent labelling with the queue
and structure already agreeing with `g`, every structure entry produced by
the BFS has its generation equal to `g` and its children one later. -/
theorem bfs_gen {imap : IMap} {g : Id → Int} (hc : ConsistentGen imap g) :
    ∀ (queue : List (Id × Int)) (visited : List Id) (struc : Tree),
      (∀ qe ∈ queue, qe.2 = g qe.1) →
      (∀ se ∈ struc, se.2.generation = g se.1 ∧ ∀ c ∈ se.2.children, g c = g se.1 + 1) →
      ∀ se ∈ bfsBuild imap queue visited struc,
        se.2.generation = g se.1 ∧ ∀ c ∈ se.2.children, g c = g se.1 + 1 := by
  intro queue visited struc
  induction queue, visited, struc using bfsBuild.induct imap with
  | case1 visited struc =>
    intro _ hs
    rw [bfsBuild]
    exact hs
  | case2 visited struc pid gen rest hv ih =>
    intro hq hs
    rw [bfsBuild]
    rw [dif_pos hv]
    exact ih (fun qe hqe => hq qe (List.mem_cons_of_mem _ hqe)) hs
  | case3 visited struc pid gen rest hv hm ih =>
    intro hq hs
    rw [bfsBuild]
    rw [dif_neg hv]
    split
    · exact ih (fun qe hqe => hq qe (List.mem_cons_of_mem _ hqe)) hs
    · rename_i ind heq
      rw [hm] at heq
      exact absurd heq (by simp)
  | case4 visited struc pid gen rest hv ind hm visited2 res ih =>
    intro hq hs
    rw [bfsBuild]
    rw [dif_neg hv]
    split
    · rename_i heq
      rw [hm] at heq
      exact absurd heq (by simp)
    · rename_i ind2 heq
      rw [hm] at heq
      injection heq with heq2
      subst heq2
      have hgen : gen = g pid := hq (pid, gen) (List.mem_cons_self _ _)
      have hnode := processNode_ok hc (mem_of_alGet_eq_some hm) (pid :: visited) gen hgen
      apply ih
      · intro qe hqe
        rcases List.mem_append.mp hqe with hmm | hmm
        · exact hq qe (List.mem_cons_of_mem _ hmm)
        · exact hnode.2.2 qe hmm
      · intro se hse
        rcases List.mem_append.mp hse with hmm | hmm
        · exact hs se hmm
        · simp at hmm
          rw [hmm]
          refine ⟨?_, ?_⟩
          · exact hnode.1.trans hgen
          · intro c hcm
            have h5 : g c = gen + 1 := hnode.2.1 c hcm
            rw [hgen] at h5
            exact h5

/-- C2 (amended): for family data admitting a consistent generation
labelling (no level-violating cycles), the builder records every child one
generation after its parent. -/
theorem spec_c2_generation_monotonic (imap : IMap) (g : Id → Int) (rootId : Id)
    (hc : ConsistentGen imap g) (hg0 : g rootId = 0)
    {P C : Id} {nP nC : TreeNode}
    (hP : alGet (buildTreeStructure imap rootId) P = some nP)
    (hC : alGet (buildTreeStructure imap rootId) C = some nC)
    (hch : C ∈ nP.children) :
    nC.generation = nP.generation + 1 := by
  have h := bfs_gen hc [(rootId, 0)] [] []
    (by
      intro qe hqe
      simp at hqe
      rw [hqe]
      simp [hg0])
    (by simp)
  have hPf := h _ (mem_of_alGet_eq_some hP)
  have hCf := h _ (mem_of_alGet_eq_some hC)
  rw [hCf.1, hPf.1]
  exact hPf.2 C hch

/-- C2 counterexample: `B` is recorded as a child of `A` but with
generation 0, not `0 + 1` - first-visit-wins makes the unconditional
monotonicity claim false on cyclic data. -/
theorem spec_c2_counterexample :
    (alGet (buildTreeStructure c2imap "A") "A").map (fun n => (n.generation, n.children))
      = some (0, ["B"]) ∧
    (alGet (buildTreeStructure c2imap "A") "B").map (fun n => n.generation) = some 0 ∧
    (0 : Int) ≠ 0 + 1 := by
  refine ⟨?_, ?_, by decide⟩ <;>
    simp [buildTreeStructure, bfsBuild, processNode, procFamc, procFams, procChildren,
      famcStep, famsPartnerStep, alGet, c2imap]

theorem count_childFold (positions : List (Id × (Int × ℚ))) (a b pid : Id) :
    ∀ (cs : List Id) (acc : List Edge),
      (cs.foldl (fun aa c => if (alGet positions c).isSome then aa ++ [childEdge pid c]
        else aa) acc).countP (spouseBetween a b) = acc.countP (spouseBetween a b) := by
  intro cs
  induction cs with
  | nil =>
    intro acc
    rfl
  | cons c rest ih =>
    intro acc
    simp only [List.foldl_cons]
    rw [ih]
    by_cases hc : (alGet positions c).isSome
    · rw [if_pos hc, List.countP_append]
      have hfalse : spouseBetween a b (childEdge pid c) = false := by
        simp [spouseBetween, childEdge]
      simp [List.countP_cons, hfalse]
    · rw [if_neg hc]

theorem spouseBetween_spouseEdge {a b x y : Id} (hab : a ≠ b)
    (hxy : (x = a ∧ y = b) ∨ (x = b ∧ y = a)) (s : Id) :
    spouseBetween a b (spouseEdge x s) = (s == y) := by
  rcases hxy with ⟨hx, hy⟩ | ⟨hx, hy⟩
  · subst hx
    subst hy
    simp only [spouseBetween, spouseEdge]
    simp [hab]
  · subst hx
    subst hy
    simp only [spouseBetween, spouseEdge]
    simp [Ne.symm hab]

theorem count_spouseFold_skip (positions : List (Id × (Int × ℚ))) (a b x : Id)
    (hskip : ∀ s : Id, spouseBetween a b (spouseEdge x s) = false) :
    ∀ (sps : List Id) (acc : List Edge),
      (sps.foldl (fun aa s =>
          if (alGet positions s).isSome then
            if x < s then aa ++ [spouseEdge x s] else aa
          else aa) acc).countP (spouseBetween a b) = acc.countP (spouseBetween a b) := by
  intro sps
  induction sps with
  | nil =>
    intro acc
    rfl
  | cons s rest ih =>
    intro acc
    simp only [List.foldl_cons]
    rw [ih]
    by_cases hs : (alGet positions s).isSome
    · rw [if_pos hs]
      by_cases hlt : x < s
      · rw [if_pos hlt, List.countP_append]
        simp [List.countP_cons, hskip s]
      · rw [if_neg hlt]
    · rw [if_neg hs]

theorem count_spouseFold_miss (positions : List (Id × (Int × ℚ))) {a b x y : Id}
    (hab : a ≠ b) (hxy : (x = a ∧ y = b) ∨ (x = b ∧ y = a)) :
    ∀ (sps : List Id), y ∉ sps →
      ∀ acc : List Edge,
        (sps.foldl (fun aa s =>
            if (alGet positions s).isSome then
              if x < s then aa ++ [spouseEdge x s] else aa
            else aa) acc).countP (spouseBetween a b) = acc.countP (spouseBetween a b) := by
  intro sps
  induction sps with
  | nil =>
    intro _ acc
    rfl
  | cons s rest ih =>
    intro hy acc
    have hsy : s ≠ y := by
      intro he
      exact hy (he ▸ List.mem_cons_self _ _)
    have hyr : y ∉ rest := fun hm => hy (List.mem_cons_of_mem _ hm)
    simp only [List.foldl_cons]
    rw [ih hyr]
    by_cases hs : (alGet positions s).isSome
    · rw [if_pos hs]
      by_cases hlt : x < s
      · rw [if_pos hlt, List.countP_append]
        have hfalse : spouseBetween a b (spouseEdge x s) = false := by
          rw [spouseBetween_spouseEdge hab hxy]
          simp [hsy]
        simp [List.countP_cons, hfalse]
      · rw [if_neg hlt]
    · rw [if_neg hs]

theorem count_spouseFold_hit (positions : List (Id × (Int × ℚ))) {a b x y : Id}
    (hab : a ≠ b) (hxy : (x = a ∧ y = b) ∨ (x = b ∧ y = a))
    (hpy : (alGet positions y).isSome) :
    ∀ (sps : List Id), sps.Nodup → y ∈ sps →
      ∀ acc : List Edge,
        (sps.foldl (fun aa s =>
            if (alGet positions s).isSome then
              if x < s then aa ++ [spouseEdge x s] else aa
            else aa) acc).countP (spouseBetween a b)
          = acc.countP (spouseBetween a b) + (if x < y then 1 else 0) := by
  intro sps
  induction sps with
  | nil =>
    intro _ hy
    simp at hy
  | cons s rest ih =>
    intro hnd hy acc
    simp only [List.foldl_cons]
    have hnd2 := List.nodup_cons.mp hnd
    rcases List.mem_cons.mp hy with hys | hyr
    · have hyr2 : y ∉ rest := by
        rw [hys]
        exact hnd2.1
      rw [count_spouseFold_miss positions hab hxy rest hyr2]
      rw [← hys, if_pos hpy]
      by_cases hlt : x < y
      · rw [if_pos hlt, List.countP_append]
        have htrue : spouseBetween a b (spouseEdge x y) = true := by
          rw [spouseBetween_spouseEdge hab hxy]
          simp
        simp [List.countP_cons, htrue, hlt]
      · rw [if_neg hlt]
        simp [hlt]
    · have hsy : s ≠ y := by
        intro he
        exact hnd2.1 (he ▸ hyr)
      rw [ih hnd2.2 hyr]
      by_cases hs : (alGet positions s).isSome
      · rw [if_pos hs]
        by_cases hlt : x < s
        · rw [if_pos hlt, List.countP_append]
          have hfalse : spouseBetween a b (spouseEdge x s) = false := by
            rw [spouseBetween_spouseEdge hab hxy]
            simp [hsy]
          simp [List.countP_cons, hfalse]
        · rw [if_neg hlt]
      · rw [if_neg hs]

theorem countP_edgeStep (positions : List (Id × (Int × ℚ))) {a b : Id} {na nb : TreeNode}
    (hab : a ≠ b)
    (hpa : (alGet positions a).isSome) (hpb : (alGet positions b).isSome)
    (hnas : na.spouses.Nodup) (hnbs : nb.spouses.Nodup)
    (hbmem : b ∈ na.spouses) (hamem : a ∈ nb.spouses)
    (k : Id) (v : TreeNode) (acc : List Edge)
    (hva : k = a → v = na) (hvb : k = b → v = nb) :
    (edgeStep positions acc (k, v)).countP (spouseBetween a b)
      = acc.countP (spouseBetween a b)
        + (if k = a then (if a < b then 1 else 0)
           else if k = b then (if b < a then 1 else 0) else 0) := by
  by_cases hka : k = a
  · subst hka
    rw [hva rfl]
    unfold edgeStep
    rw [if_neg (by simp only [Option.isNone_iff_eq_none]; exact Option.isSome_iff_ne_none.mp hpa)]
    simp only
    rw [count_spouseFold_hit positions hab (Or.inl ⟨rfl, rfl⟩) hpb na.spouses hnas hbmem]
    rw [count_childFold]
    simp
  · by_cases hkb : k = b
    · subst hkb
      rw [hvb rfl]
      unfold edgeStep
      rw [if_neg (by simp only [Option.isNone_iff_eq_none]; exact Option.isSome_iff_ne_none.mp hpb)]
      simp only
      rw [count_spouseFold_hit positions hab (Or.inr ⟨rfl, rfl⟩) hpa nb.spouses hnbs hamem]
      rw [count_childFold]
      simp [hka]
    · unfold edgeStep
      split
      · simp [hka, hkb]
      · simp only
        have hskip : ∀ s : Id, spouseBetween a b (spouseEdge k s) = false := by
          intro s
          simp [spouseBetween, spouseEdge, hka, hkb]
        rw [count_spouseFold_skip positions a b k hskip]
        rw [count_childFold]
        simp [hka, hkb]

theorem count_canvasFold (positions : List (Id × (Int × ℚ))) {a b : Id} {na nb : TreeNode}
    (hab : a ≠ b)
    (hpa : (alGet positions a).isSome) (hpb : (alGet positions b).isSome)
    (hnas : na.spouses.Nodup) (hnbs : nb.spouses.Nodup)
    (hbmem : b ∈ na.spouses) (hamem : a ∈ nb.spouses) :
    ∀ (l : Tree) (acc : List Edge), (keysOf l).Nodup →
      (∀ v : TreeNode, (a, v) ∈ l → v = na) →
      (∀ v : TreeNode, (b, v) ∈ l → v = nb) →
      (l.foldl (edgeStep positions) acc).countP (spouseBetween a b)
        = acc.countP (spouseBetween a b)
          + (if a ∈ keysOf l then (if a < b then 1 else 0) else 0)
          + (if b ∈ keysOf l then (if b < a then 1 else 0) else 0) := by
  intro l
  induction l with
  | nil =>
    intro acc _ _ _
    simp [keysOf]
  | cons e rest ih =>
    intro acc hnd hva hvb
    obtain ⟨k, v⟩ := e
    simp only [List.foldl_cons]
    have hndk : k ∉ keysOf rest := by
      simp only [keysOf, List.map_cons, List.nodup_cons] at hnd
      exact hnd.1
    have hnd2 : (keysOf rest).Nodup := by
      simp only [keysOf, List.map_cons, List.nodup_cons] at hnd
      exact hnd.2
    rw [ih _ hnd2 (fun v2 hm => hva v2 (List.mem_cons_of_mem _ hm))
      (fun v2 hm => hvb v2 (List.mem_cons_of_mem _ hm))]
    rw [countP_edgeStep positions hab hpa hpb hnas hnbs hbmem hamem k v acc
      (fun hk => hva v (by rw [hk]; exact List.mem_cons_self _ _))
      (fun hk => hvb v (by rw [hk]; exact List.mem_cons_self _ _))]
    have hmema : a ∈ keysOf ((k, v) :: rest) ↔ k = a ∨ a ∈ keysOf rest := by
      simp [keysOf, eq_comm]
    have hmemb : b ∈ keysOf ((k, v) :: rest) ↔ k = b ∨ b ∈ keysOf rest := by
      simp [keysOf, eq_comm]
    by_cases hka : k = a
    · have hnar : a ∉ keysOf rest := by
        rw [← hka]
        exact hndk
      rw [if_pos (hmema.mpr (Or.inl hka)), if_neg hnar]
      by_cases hkb2 : b ∈ keysOf rest
      · rw [if_pos (hmemb.mpr (Or.inr hkb2)), if_pos hkb2]
        simp [hka]
      · have : ¬ b ∈ keysOf ((k, v) :: rest) := by
          rw [hmemb]
          push_neg
          exact ⟨fun he => hab (hka.symm.trans he), hkb2⟩
        rw [if_neg this, if_neg hkb2]
        simp [hka]
    · by_cases hkb : k = b
      · have hnbr : b ∉ keysOf rest := by
          rw [← hkb]
          exact hndk
        rw [if_neg hnbr]
        rw [if_pos (hmemb.mpr (Or.inl hkb))]
        by_cases hka2 : a ∈ keysOf rest
        · rw [if_pos (hmema.mpr (Or.inr hka2)), if_pos hka2]
          simp [hkb, Ne.symm hab]
          omega
        · have : ¬ a ∈ keysOf ((k, v) :: rest) := by
            rw [hmema]
            push_neg
            exact ⟨hka, hka2⟩
          rw [if_neg this, if_neg hka2]
          simp [hkb, Ne.symm hab]
      · have h1 : (a ∈ keysOf ((k, v) :: rest)) ↔ a ∈ keysOf rest := by
          rw [hmema]
          simp [hka]
        have h2 : (b ∈ keysOf ((k, v) :: rest)) ↔ b ∈ keysOf rest := by
          rw [hmemb]
          simp [hkb]
        rw [show (if k = a then (if a < b then 1 else 0)
            else if k = b then (if b < a then 1 else 0) else 0) = 0 by simp [hka, hkb]]
        by_cases ha2 : a ∈ keysOf rest
        · rw [if_pos (h1.mpr ha2), if_pos ha2]
          by_cases hb2 : b ∈ keysOf rest
          · rw [if_pos (h2.mpr hb2), if_pos hb2]
            omega
          · rw [if_neg (fun hm => hb2 (h2.mp hm)), if_neg hb2]
            omega
        · rw [if_neg (fun hm => ha2 (h1.mp hm)), if_neg ha2]
          by_cases hb2 : b ∈ keysOf rest
          · rw [if_pos (h2.mpr hb2), if_pos hb2]
          · rw [if_neg (fun hm => hb2 (h2.mp hm)), if_neg hb2]

theorem spouse_edges_sorted (positions : List (Id × (Int × ℚ))) :
    ∀ (l : Tree) (acc : List Edge),
      (∀ e ∈ acc, e.label = "Spouse" → e.fromId < e.toId) →
      ∀ e ∈ l.foldl (edgeStep positions) acc, e.label = "Spouse" → e.fromId < e.toId := by
  intro l
  induction l with
  | nil =>
    intro acc hacc
    exact hacc
  | cons entry rest ih =>
    intro acc hacc
    simp only [List.foldl_cons]
    apply ih
    obtain ⟨k, v⟩ := entry
    unfold edgeStep
    split
    · exact hacc
    · simp only
      have hchild : ∀ e ∈ v.children.foldl
          (fun a c => if (alGet positions c).isSome then a ++ [childEdge k c] else a) acc,
          e.label = "Spouse" → e.fromId < e.toId := by
        clear ih
        induction v.children generalizing acc with
        | nil => exact hacc
        | cons c rest2 ih2 =>
          simp only [List.foldl_cons]
          apply ih2
          · by_cases hc : (alGet positions c).isSome
            · rw [if_pos hc]
              intro e he hl
              rcases List.mem_append.mp he with hm | hm
              · exact hacc e hm hl
              · simp at hm
                rw [hm] at hl
                simp [childEdge] at hl
            · rw [if_neg hc]
              exact hacc
      clear hacc
      generalize hgacc : (v.children.foldl
        (fun a c => if (alGet positions c).isSome then a ++ [childEdge k c] else a) acc)
        = acc1 at hchild
      clear hgacc
      induction v.spouses generalizing acc1 with
      | nil => exact hchild
      | cons s rest2 ih2 =>
        simp only [List.foldl_cons]
        apply ih2
        by_cases hs : (alGet positions s).isSome
        · rw [if_pos hs]
          by_cases hlt : k < s
          · rw [if_pos hlt]
            intro e he hl
            rcases List.mem_append.mp he with hm | hm
            · exact hchild e hm hl
            · simp at hm
              rw [hm]
              simpa [spouseEdge] using hlt
          · rw [if_neg hlt]
            exact hchild
        · rw [if_neg hs]
          exact hchild

/-- C5: for a mutual, deduplicated spouse pair with both partners
positioned, exactly one "Spouse" edge is emitted between their nodes, and
every "Spouse" edge runs from the id that string-sorts below to the one
that sorts above. -/
theorem spec_c5_spouse_edge_unique {positions : List (Id × (Int × ℚ))} {tree : Tree}
    {a b : Id} {na nb : TreeNode}
    (hnd : (keysOf tree).Nodup)
    (hga : alGet tree a = some na) (hgb : alGet tree b = some nb)
    (hab : a ≠ b)
    (hbs : b ∈ na.spouses) (has2 : a ∈ nb.spouses)
    (hnas : na.spouses.Nodup) (hnbs : nb.spouses.Nodup)
    (hpa : (alGet positions a).isSome) (hpb : (alGet positions b).isSome) :
    (canvasEdges positions tree).countP (spouseBetween a b) = 1 ∧
    ∀ e ∈ canvasEdges positions tree, e.label = "Spouse" → e.fromId < e.toId := by
  constructor
  · unfold canvasEdges
    rw [count_canvasFold positions hab hpa hpb hnas hnbs hbs has2 tree [] hnd
      (fun v hm => by
        have := alGet_of_nodup_mem hnd hm
        rw [hga] at this
        injection this with h2
        exact h2.symm)
      (fun v hm => by
        have := alGet_of_nodup_mem hnd hm
        rw [hgb] at this
        injection this with h2
        exact h2.symm)]
    rw [if_pos (mem_keysOf_of_alGet_eq_some hga), if_pos (mem_keysOf_of_alGet_eq_some hgb)]
    rcases Ne.lt_or_lt hab with hlt | hlt
    · rw [if_pos hlt, if_neg (lt_asymm hlt)]
      simp
    · rw [if_neg (lt_asymm hlt), if_pos hlt]
      simp
  · unfold canvasEdges
    exact spouse_edges_sorted positions tree [] (by simp)

theorem place_pos_mono (st : LState) (k k2 : Id) (x : Int) (y : ℚ)
    (h : (alGet st.positions k2).isSome) :
    (alGet (place st k x y).positions k2).isSome := by
  by_cases hk : k2 = k
  · subst hk
    simp [place, alGet_alSet_self]
  · simp only [place]
    rw [alGet_alSet_ne _ _ _ _ hk]
    exact h

theorem ancCoupleStep_pos_mono (tree : Tree) (st : LState) (miny : MinY)
    (f m : Id) (px : Int) (py : ℚ) (d : Dir) (k : Id)
    (h : (alGet st.positions k).isSome) :
    (alGet (ancCoupleStep tree st miny f m px py d).1.positions k).isSome := by
  unfold ancCoupleStep
  simp only
  split
  · split
    · exact place_pos_mono _ _ _ _ _ (place_pos_mono _ _ _ _ _ h)
    · exact place_pos_mono _ _ _ _ _ h
  · split
    · exact place_pos_mono _ _ _ _ _ h
    · exact h

theorem ancCoupleStep_father_pos (tree : Tree) (st : LState) (miny : MinY)
    (f m : Id) (px : Int) (py : ℚ) (d : Dir)
    (hf : (alGet tree f).isSome) (hp : f ∉ st.processed) :
    (alGet (ancCoupleStep tree st miny f m px py d).1.positions f).isSome := by
  unfold ancCoupleStep
  simp only
  split
  · split
    · exact place_pos_mono _ _ _ _ _ (by simp [place, alGet_alSet_self])
    · simp [place, alGet_alSet_self]
  · rename_i hcon
    exact absurd ⟨hf, hp⟩ hcon

theorem cyc_anc_diverges : ∀ fuel : Nat,
    (∀ (st : LState) (miny : MinY) (d : Dir),
      (alGet st.positions "A").isSome →
      ((alGet st.positions "B").isSome ∨ "B" ∉ st.processed) →
      exec cycTree fuel (Task.anc "A" d) st miny = none) ∧
    (∀ (st : LState) (miny : MinY) (d : Dir),
      (alGet st.positions "B").isSome →
      ((alGet st.positions "A").isSome ∨ "A" ∉ st.processed) →
      exec cycTree fuel (Task.anc "B" d) st miny = none) := by
  intro fuel
  induction fuel with
  | zero => exact ⟨fun _ _ _ _ _ => rfl, fun _ _ _ _ _ => rfl⟩
  | succ f ih =>
    constructor
    · intro st miny d hA hB
      obtain ⟨pA, hpA⟩ := Option.isSome_iff_exists.mp hA
      have hstB : (alGet (ancCoupleStep cycTree st miny "B" "C"
          (pA.1 + GENERATION_SPACING) pA.2 d).1.positions "B").isSome := by
        rcases hB with hBs | hBp
        · exact ancCoupleStep_pos_mono _ _ _ _ _ _ _ _ _ hBs
        · exact ancCoupleStep_father_pos _ _ _ _ _ _ _ _ (by decide) hBp
      have hstA : (alGet (ancCoupleStep cycTree st miny "B" "C"
          (pA.1 + GENERATION_SPACING) pA.2 d).1.positions "A").isSome :=
        ancCoupleStep_pos_mono _ _ _ _ _ _ _ _ _ hA
      simp only [exec]
      rw [show alGet cycTree "A" =
        some ⟨"F", true, 0, [], [], ["B", "C"]⟩ from by decide]
      rw [hpA]
      simp only
      rw [show getSiblings cycTree "B" = [] from by decide]
      rw [show getSiblings cycTree "C" = [] from by decide]
      cases f with
      | zero => rfl
      | succ f2 =>
        rw [show ∀ (st2 : LState) (m2 : MinY) (c : ℚ),
            exec cycTree (f2 + 1) (Task.ancSibs [] [] d (pA.1 + GENERATION_SPACING) c) st2 m2
              = some (st2, m2, c) from fun _ _ _ => rfl]
        simp only
        rw [show ∀ (st2 : LState) (m2 : MinY) (c : ℚ),
            exec cycTree (f2 + 1) (Task.ancSibs [] [] d (pA.1 + GENERATION_SPACING) c) st2 m2
              = some (st2, m2, c) from fun _ _ _ => rfl]
        simp only
        rw [if_pos (show (alGet cycTree "B").isSome = true from by decide)]
        rw [(ih.2 _ _ d hstB (Or.inl hstA))]
    · intro st miny d hB hA
      obtain ⟨pB, hpB⟩ := Option.isSome_iff_exists.mp hB
      have hstA : (alGet (ancCoupleStep cycTree st miny "A" "C"
          (pB.1 + GENERATION_SPACING) pB.2 d).1.positions "A").isSome := by
        rcases hA with hAs | hAp
        · exact ancCoupleStep_pos_mono _ _ _ _ _ _ _ _ _ hAs
        · exact ancCoupleStep_father_pos _ _ _ _ _ _ _ _ (by decide) hAp
      have hstB : (alGet (ancCoupleStep cycTree st miny "A" "C"
          (pB.1 + GENERATION_SPACING) pB.2 d).1.positions "B").isSome :=
        ancCoupleStep_pos_mono _ _ _ _ _ _ _ _ _ hB
      simp only [exec]
      rw [show alGet cycTree "B" =
        some ⟨"F", true, -1, [], [], ["A", "C"]⟩ from by decide]
      rw [hpB]
      simp only
      rw [show getSiblings cycTree "A" = [] from by decide]
      rw [show getSiblings cycTree "C" = [] from by decide]
      cases f with
      | zero => rfl
      | succ f2 =>
        rw [show ∀ (st2 : LState) (m2 : MinY) (c : ℚ),
            exec cycTree (f2 + 1) (Task.ancSibs [] [] d (pB.1 + GENERATION_SPACING) c) st2 m2
              = some (st2, m2, c) from fun _ _ _ => rfl]
        simp only
        rw [show ∀ (st2 : LState) (m2 : MinY) (c : ℚ),
            exec cycTree (f2 + 1) (Task.ancSibs [] [] d (pB.1 + GENERATION_SPACING) c) st2 m2
              = some (st2, m2, c) from fun _ _ _ => rfl]
        simp only
        rw [if_pos (show (alGet cycTree "A").isSome = true from by decide)]
        rw [(ih.1 _ _ d hstA (Or.inl hstB))]

/-- C8 counterexample: on `cycTree`, a cyclic two-parent structure, the
position calculation never terminates — the fueled interpreter returns
`none` (fuel exhausted) for EVERY fuel bound, refuting the claim that
canvas generation completes on every tree-structure input. -/
theorem spec_c8_counterexample : cycNeverReturns := by
  intro fuel
  unfold calcPositions
  rw [if_neg (show ¬ cycTree = [] from by decide)]
  rw [show findRoot cycTree = some ("A", ⟨"F", true, 0, [], [], ["B", "C"]⟩) from by decide]
  simp only
  rw [if_neg (show ¬ ("A" : Id) = "" from by decide)]
  unfold calcTail
  cases fuel with
  | zero => rfl
  | succ f2 =>
    have hdesc : exec cycTree (f2 + 1) (Task.desc "A")
        ⟨[("A", ((0 : Int), (0 : ℚ)))], ["A"]⟩ []
        = some (⟨[("A", ((0 : Int), (0 : ℚ)))], ["A"]⟩, [], 0) := rfl
    rw [hdesc]
    simp only
    rw [(cyc_anc_diverges (f2 + 1)).1 ⟨[("A", ((0 : Int), (0 : ℚ)))], ["A"]⟩ []
      (dirOfGender "F") (by decide) (Or.inr (by decide))]

theorem spec_c4_completeness_witness :
    ("B" ∈ keysOf [("A", ((0 : Int), (0 : ℚ))), ("B", ((400 : Int), (0 : ℚ)))] ↔
      "B" ∈ keysOf w4tree) :=
  @spec_c4_completeness w4tree 10 [("A", ((0 : Int), (0 : ℚ))), ("B", ((400 : Int), (0 : ℚ)))]
    ("A", ⟨"F", true, 0, [], [], []⟩) (by decide) (by decide) (by decide) "B"

theorem spec_c7_missing_root_empty_witness : calcPositions w7tree 5 = some [] :=
  @spec_c7_missing_root_empty w7tree 5 (by decide)

theorem spec_c3_determinism_witness :
    calcPositions w4tree 3 = calcPositions w4tree 3 :=
  spec_c3_determinism w4tree w4tree 3 rfl

theorem spec_c8_positions_from_structure_witness : "A" ∈ keysOf w8tree :=
  @spec_c8_positions_from_structure w8tree 10 [("A", ((0 : Int), (0 : ℚ)))] (by decide)
    "A" (by decide)

theorem spec_c6_root_at_origin_witness :
    alGet [("A", ((0 : Int), (0 : ℚ))), ("B", ((0 : Int), (540 : ℚ)))] "A" = some (0, 0) :=
  @spec_c6_root_at_origin w6tree 10 [("A", ((0 : Int), (0 : ℚ))), ("B", ((0 : Int), (540 : ℚ)))]
    ("A", ⟨"M", true, 0, ["B"], [], []⟩) (by decide) (by decide) (by decide) (by decide)

theorem spec_c9_parent_couple_male_root_witness :
    alGet [("R", ((0 : Int), (0 : ℚ))), ("F", ((680 : Int), (0 : ℚ))),
        ("M", ((680 : Int), (-540 : ℚ)))] "F" = some (GENERATION_SPACING, 0) ∧
    alGet [("R", ((0 : Int), (0 : ℚ))), ("F", ((680 : Int), (0 : ℚ))),
        ("M", ((680 : Int), (-540 : ℚ)))] "M"
      = some (GENERATION_SPACING, 0 - IMAGE_HEIGHT - COUPLE_SPACING) :=
  @spec_c9_parent_couple_male_root w9tree 10
    [("R", ((0 : Int), (0 : ℚ))), ("F", ((680 : Int), (0 : ℚ))),
      ("M", ((680 : Int), (-540 : ℚ)))]
    ("R", ⟨"M", true, 0, [], [], ["F", "M"]⟩) "F" "M"
    ⟨"M", true, 1, [], [], []⟩ ⟨"F", true, 1, [], [], []⟩
    (by decide) (by decide) (by decide) rfl rfl rfl rfl (by decide) (by decide)
    (by decide) (by decide) (by decide) (by decide)

theorem spec_c1_parent_couple_no_overlap_witness :
    ∃ x yf ym,
      alGet ((⟨[("R", ((0 : Int), (0 : ℚ))), ("F", ((680 : Int), (0 : ℚ))),
          ("M", ((680 : Int), (-540 : ℚ)))], ["M", "F", "R"]⟩ : LState),
          ([(((680 : Int), Dir.up), (-1195 : ℚ))] : MinY), (0 : ℚ)).1.positions "F"
        = some (x, yf) ∧
      alGet ((⟨[("R", ((0 : Int), (0 : ℚ))), ("F", ((680 : Int), (0 : ℚ))),
          ("M", ((680 : Int), (-540 : ℚ)))], ["M", "F", "R"]⟩ : LState),
          ([(((680 : Int), Dir.up), (-1195 : ℚ))] : MinY), (0 : ℚ)).1.positions "M"
        = some (x, ym) ∧
      (yf + nodeHeight ⟨"M", true, 1, [], [], []⟩ ≤ ym ∨
        ym + nodeHeight ⟨"F", true, 1, [], [], []⟩ ≤ yf) :=
  @spec_c1_parent_couple_no_overlap w1tree 5
    ⟨[("R", ((0 : Int), (0 : ℚ)))], ["R"]⟩ []
    ((⟨[("R", ((0 : Int), (0 : ℚ))), ("F", ((680 : Int), (0 : ℚ))),
        ("M", ((680 : Int), (-540 : ℚ)))], ["M", "F", "R"]⟩ : LState),
        ([(((680 : Int), Dir.up), (-1195 : ℚ))] : MinY), (0 : ℚ))
    "R" "F" "M" ⟨"F", true, 0, [], [], ["F", "M"]⟩
    ⟨"M", true, 1, [], [], []⟩ ⟨"F", true, 1, [], [], []⟩ Dir.up ((0 : Int), (0 : ℚ))
    (by decide) rfl (by decide) (by decide) (by decide) (by decide) (by decide)
    (by decide) (by decide)

theorem spec_c10_three_parents_unplaced_witness :
    ((⟨[("X", ((0 : Int), (0 : ℚ)))], ["X"]⟩ : LState), ([] : MinY), (0 : ℚ)).1
        = (⟨[("X", ((0 : Int), (0 : ℚ)))], ["X"]⟩ : LState) ∧
    ((⟨[("X", ((0 : Int), (0 : ℚ)))], ["X"]⟩ : LState), ([] : MinY), (0 : ℚ)).2.1
        = ([] : MinY) :=
  @spec_c10_three_parents_unplaced w10tree 1 ⟨[("X", ((0 : Int), (0 : ℚ)))], ["X"]⟩ []
    ((⟨[("X", ((0 : Int), (0 : ℚ)))], ["X"]⟩ : LState), ([] : MinY), (0 : ℚ))
    "X" ⟨"F", true, 0, [], [], ["P", "Q", "R"]⟩ Dir.down
    (by decide) (by decide) (by decide)

theorem spec_c2_generation_monotonic_witness :
    (⟨"F", true, 1, [], [], ["A"]⟩ : TreeNode).generation
      = (⟨"M", true, 0, [], ["B"], []⟩ : TreeNode).generation + 1 :=
  @spec_c2_generation_monotonic c2wim c2g "A"
    (by
      intro e he
      simp only [c2wim, List.mem_cons, List.not_mem_nil, or_false] at he
      rcases he with he | he <;> subst he
      · refine ⟨by simp, ?_⟩
        intro fam hf
        simp only [List.mem_cons, List.not_mem_nil, or_false] at hf
        subst hf
        refine ⟨trivial, ?_⟩
        intro c hc hne
        simp only [List.mem_cons, List.not_mem_nil, or_false] at hc
        subst hc
        decide
      · refine ⟨?_, by simp⟩
        intro fam hf
        simp only [List.mem_cons, List.not_mem_nil, or_false] at hf
        subst hf
        refine ⟨?_, trivial⟩
        intro hne
        decide)
    (by decide)
    "A" "B" ⟨"M", true, 0, [], ["B"], []⟩ ⟨"F", true, 1, [], [], ["A"]⟩
    (by simp [buildTreeStructure, bfsBuild, processNode, procFamc, procFams, procChildren,
      famcStep, famsPartnerStep, alGet, c2wim])
    (by simp [buildTreeStructure, bfsBuild, processNode, procFamc, procFams, procChildren,
      famcStep, famsPartnerStep, alGet, c2wim])
    (by decide)

theorem spec_c5_spouse_edge_unique_witness :
    (canvasEdges w5pos w5tree).countP (spouseBetween "A" "B") = 1 :=
  (@spec_c5_spouse_edge_unique w5pos w5tree "A" "B"
    ⟨"M", true, 0, ["B"], [], []⟩ ⟨"F", true, 0, ["A"], [], []⟩
    (by decide) (by decide) (by decide) (by decide) (by decide) (by decide)
    (by decide) (by decide) (by decide) (by decide)).1


/-- C4 counterexample: `c4tree` contains a generation-0 node, but its key
is the empty string, so `if not root_id` (line 189) fires and the solver
returns the empty map: the structure key is missing from the returned key
set. -/
theorem spec_c4_counterexample :
    calcPositions c4tree 10 = some [] ∧ "" ∈ keysOf c4tree ∧
      ("" : Id) ∉ keysOf ([] : List (Id × (Int × ℚ))) := by
  refine ⟨?_, by decide, by decide⟩
  decide

/-- C9 counterexample: the root of `c9tree` is male, spouseless and lists
exactly the parents `F` then `M`, but its key is the falsy empty string,
so the solver returns the empty map and places neither parent. -/
theorem spec_c9_counterexample :
    findRoot c9tree = some ("", ⟨"M", true, 0, [], [], ["F", "M"]⟩) ∧
    calcPositions c9tree 10 = some [] ∧
    alGet ([] : List (Id × (Int × ℚ))) "F" = none := by
  refine ⟨by decide, ?_, by decide⟩
  decide

end GedcomCanvas
